import Mathlib

/-!
Verification development for the bytesized/utilities installer.

The central object is `update_loader_in_script` from `src/installer/bashrc.py`,
a sentinel-delimited block editor for shell startup files.  The Python function
is embedded shallowly: the file system is `Option String` (contents of the
target file, `none` = file absent), and the function is modelled as a pure
computation that returns the list of file-system operations the Python code
performs (temp-file writes, removes, renames, appends, creations) together
with its result (`Except BadFileContents Unit`, where the error corresponds to
the raised `BadFileContents` exception).  Applying the operation list to a
small file-system state yields the observable final contents, so claims about
"the file afterwards" as well as claims about the mechanism (which operations
were used) can both be stated.

Also embedded: `force_remove_dir` from `src/installer/__main__.py` (with the
external `shutil.rmtree` behaviour as an oracle parameter) and the two bash
path-string helpers from `src/installer/bashrc.py` (with `cygpath.to_unix_path`
as an oracle parameter, since on non-Windows platforms it is the identity and
on Windows it shells out).
-/

namespace Bytesized

set_option maxRecDepth 200000

/-! ## Python string helpers

Python iterates a text file line by line, keeping the trailing newline of each
line; the final line may lack one.  `splitLinesAux`/`pyLines` reproduce that
splitting.  `pyReplaceFuel`/`pyReplace` reproduce `str.replace` (leftmost,
non-overlapping, scanning resumes after each replacement); the fuel is the
length of the subject string, which every step decreases by at least one
consumed character, so the fuel never runs out.  `pyEndsWithNewline` is
Python's `s.endswith("\n")`.
-/

/-- Split a character list into Python-style lines (each line keeps its
trailing newline character; a final segment without a newline is kept as is).
`acc` holds the reversed characters of the line being assembled. -/
def splitLinesAux : List Char → List Char → List (List Char)
  | [], acc => if acc = [] then [] else [acc.reverse]
  | c :: cs, acc =>
    if c = '\n' then (acc.reverse ++ ['\n']) :: splitLinesAux cs []
    else splitLinesAux cs (c :: acc)

/-- Python's line iteration over file contents. -/
def pyLines (s : String) : List String :=
  (splitLinesAux s.data []).map String.mk

/-- Concatenation of a list of strings (inverse of `pyLines`). -/
def concatS (ls : List String) : String :=
  ls.foldr (fun a b => a ++ b) ""

/-- Python `s.endswith("\n")`. -/
def pyEndsWithNewline (s : String) : Bool :=
  s.data.getLast? == some '\n'

/-- Python `str.replace`, on character lists, with fuel. -/
def pyReplaceFuel (pat rep : List Char) : Nat → List Char → List Char
  | 0, s => s
  | _ + 1, [] => []
  | n + 1, c :: cs =>
    if pat.isPrefixOf (c :: cs) then
      rep ++ pyReplaceFuel pat rep n (cs.drop (pat.length - 1))
    else
      c :: pyReplaceFuel pat rep n cs

/-- Python `s.replace(pat, rep)` (for the nonempty patterns used here). -/
def pyReplace (s pat rep : String) : String :=
  if pat.data.isEmpty then s
  else String.mk (pyReplaceFuel pat.data rep.data s.data.length s.data)

/-! ## Constants from src/installer/bashrc.py -/

/-- bashrc.py line 7. -/
def BASH_SHEBANG : String := "#!/bin/bash\n"

/-- bashrc.py line 9 (the f-string evaluated with the literal `LOADER_UUID`). -/
def LOADER_START_SENTINEL : String :=
  "# >>> BYTESIZED BASHRC LOADER START(b52960a2-e8ed-4833-a86f-9aa7b401a557) >>>\n"

/-- bashrc.py line 10 (the f-string evaluated with the literal `LOADER_UUID`). -/
def LOADER_END_SENTINEL : String :=
  "# <<< BYTESIZED BASHRC LOADER END(b52960a2-e8ed-4833-a86f-9aa7b401a557) <<<\n"

/-- bashrc.py lines 12-20: the triple-quoted literal after `.strip() + "\n"`
(the Python expression is evaluated at import time; this is its value). -/
def LOADER_CODE : String :=
  "# Do not tamper with this code or the surrounding sentinels.\n# To remove this, it is best to run the bytesized utilities uninstaller.\n# For more info, see: https://github.com/bytesized/utilities\nif [[ -r \"__BASHRC_PATH__\" && \"$_B_BASHRC_LOADED\" != \"true\" ]]\nthen\n  . \"__BASHRC_PATH__\"\nfi\n"

/-- bashrc.py line 125: `LOADER_CODE.replace("__BASHRC_PATH__", load_target)`. -/
def mkLoaderCode (load_target : String) : String :=
  pyReplace LOADER_CODE "__BASHRC_PATH__" load_target

/-! ## The sentinel block editor, `update_loader_in_script` -/

/-- The `BadFileContents` exception raised by bashrc.py. -/
structure BadFileContents where
  msg : String
deriving DecidableEq, Repr

instance {e a : Type} [DecidableEq e] [DecidableEq a] : DecidableEq (Except e a) :=
  fun x y =>
    match x, y with
    | .error u, .error v =>
      decidable_of_iff (u = v) ⟨fun h => by rw [h], fun h => by injection h⟩
    | .error _, .ok _ => isFalse (fun h => nomatch h)
    | .ok _, .error _ => isFalse (fun h => nomatch h)
    | .ok u, .ok v =>
      decidable_of_iff (u = v) ⟨fun h => by rw [h], fun h => by injection h⟩

/-- One observable file-system operation performed by
`update_loader_in_script` (bashrc.py lines 131-195). -/
inductive FSOp where
  /-- `tempfile.NamedTemporaryFile(mode = "w", delete = False)`: create the
  scratch file (empty). -/
  | createTemp
  /-- `temp_file.write(data)`. -/
  | writeTemp (data : String)
  /-- `os.remove(script_path)`. -/
  | removeOrig
  /-- `os.rename(temp_path, script_path)`. -/
  | renameTempToOrig
  /-- `os.remove(temp_path)`. -/
  | removeTemp
  /-- `open(script_path, "a")` followed by writing `data`. -/
  | appendOrig (data : String)
  /-- `open(script_path, "w")` on a previously missing file, writing `data`. -/
  | createOrig (data : String)
deriving DecidableEq, Repr

/-- The mutable state of the line loop in bashrc.py lines 127-166. -/
structure ScanState where
  oldLoaderFound : Bool
  lastLine : String
  inMarkedSection : Bool
  justWroteLoader : Bool
deriving DecidableEq, Repr

/-- bashrc.py lines 139-166: the body of `for line in orig_file`, for one
line.  Returns the temp-file writes performed for this line and either the
updated state or the raised `BadFileContents`. -/
def stepLine (loader_code : String) (remove_loader : Bool) (st : ScanState)
    (line : String) : List FSOp × Except BadFileContents ScanState :=
  if line = LOADER_START_SENTINEL then
    if st.inMarkedSection then
      ([], .error ⟨"Found a start sentinel without an end sentinel"⟩)
    else
      -- in_marked_section := true; possibly write the fresh block
      let writeBlock := !st.oldLoaderFound && !remove_loader
      let ops :=
        if writeBlock then
          (if st.lastLine ≠ "\n" then [FSOp.writeTemp "\n"] else []) ++
            [FSOp.writeTemp LOADER_START_SENTINEL, FSOp.writeTemp loader_code,
             FSOp.writeTemp LOADER_END_SENTINEL]
        else []
      let jwl := if writeBlock then true else st.justWroteLoader
      -- the `if not in_marked_section` write is skipped (we are now marked);
      -- then the `if line == LOADER_END_SENTINEL` check runs on this line
      if line = LOADER_END_SENTINEL then
        (ops, .ok ⟨true, line, false, jwl⟩)
      else
        (ops, .ok ⟨true, line, true, jwl⟩)
  else
    let ops :=
      if !st.inMarkedSection then
        (if st.justWroteLoader && line ≠ "\n" then [FSOp.writeTemp "\n"] else []) ++
          [FSOp.writeTemp line]
      else []
    let jwl := if !st.inMarkedSection then false else st.justWroteLoader
    if line = LOADER_END_SENTINEL then
      if !st.inMarkedSection then
        (ops, .error ⟨"Found an end sentinel without a start sentinel"⟩)
      else
        (ops, .ok ⟨st.oldLoaderFound, line, false, jwl⟩)
    else
      (ops, .ok ⟨st.oldLoaderFound, line, st.inMarkedSection, jwl⟩)

/-- The whole `for line in orig_file` loop.  On an exception the temp-file
writes performed so far are still reported (they happened before the raise). -/
def scanLines (loader_code : String) (remove_loader : Bool) :
    List String → ScanState → List FSOp × Except BadFileContents ScanState
  | [], st => ([], .ok st)
  | line :: rest, st =>
    match stepLine loader_code remove_loader st line with
    | (ops, .error e) => (ops, .error e)
    | (ops, .ok st') =>
      match scanLines loader_code remove_loader rest st' with
      | (ops', res) => (ops ++ ops', res)

/-- bashrc.py lines 127-130: initial loop state (`last_line = "\n"`:
start-of-file counts as the previous line being empty). -/
def initialScanState : ScanState := ⟨false, "\n", false, false⟩

/-- bashrc.py lines 120-195 given the already-substituted loader code.
`file` is the contents of `script_path` (`none` = the file does not exist,
making `open` raise `FileNotFoundError`). -/
def updateLoaderCore (file : Option String) (loader_code : String)
    (remove_loader : Bool) : List FSOp × Except BadFileContents Unit :=
  match file with
  | none =>
    -- `except FileNotFoundError:` (lines 170-178)
    if remove_loader then ([], .ok ())
    else ([FSOp.createOrig (BASH_SHEBANG ++ "\n" ++ LOADER_START_SENTINEL ++
            loader_code ++ LOADER_END_SENTINEL)], .ok ())
  | some contents =>
    match scanLines loader_code remove_loader (pyLines contents) initialScanState with
    | (ops, .error e) => (FSOp.createTemp :: ops, .error e)
    | (ops, .ok st) =>
      if st.inMarkedSection then
        -- lines 168-169: EOF while inside a marked section
        (FSOp.createTemp :: ops, .error ⟨"Found a start sentinel without an end sentinel"⟩)
      else if st.oldLoaderFound then
        -- lines 180-183: overwrite the file with the temp file
        (FSOp.createTemp :: ops ++ [FSOp.removeOrig, FSOp.renameTempToOrig], .ok ())
      else
        -- lines 184-195: discard the temp file; possibly append the block
        (FSOp.createTemp :: ops ++ [FSOp.removeTemp] ++
          (if remove_loader then []
           else
             [FSOp.appendOrig (
               (if !pyEndsWithNewline st.lastLine then "\n\n"
                else if st.lastLine ≠ "\n" then "\n" else "") ++
               LOADER_START_SENTINEL ++ loader_code ++ LOADER_END_SENTINEL)]), .ok ())

/-- bashrc.py lines 120-195: `update_loader_in_script(script_path, load_target,
remove_loader)`, with the contents of `script_path` passed in as `file`. -/
def update_loader_in_script (file : Option String) (load_target : String)
    (remove_loader : Bool) : List FSOp × Except BadFileContents Unit :=
  updateLoaderCore file (mkLoaderCode load_target) remove_loader

/-- The two files the routine touches: the target and the scratch file. -/
structure FS where
  orig : Option String
  temp : Option String
deriving DecidableEq, Repr

/-- Effect of one operation on the two files. -/
def applyOp (fs : FS) : FSOp → FS
  | .createTemp => { fs with temp := some "" }
  | .writeTemp d => { fs with temp := some ((fs.temp.getD "") ++ d) }
  | .removeOrig => { fs with orig := none }
  | .renameTempToOrig => { orig := fs.temp, temp := none }
  | .removeTemp => { fs with temp := none }
  | .appendOrig d => { fs with orig := some ((fs.orig.getD "") ++ d) }
  | .createOrig d => { fs with orig := some d }

/-- Run a list of operations. -/
def runOps (fs : FS) (ops : List FSOp) : FS :=
  ops.foldl applyOp fs

/-- Final file-system state after one call on a file with the given contents. -/
def fsAfter (file : Option String) (load_target : String)
    (remove_loader : Bool) : FS :=
  runOps ⟨file, none⟩ (update_loader_in_script file load_target remove_loader).1

/-- Contents of the target file after one call (errors leave it unchanged,
which is proved, not assumed: error traces only touch the scratch file). -/
def fileAfter (file : Option String) (load_target : String)
    (remove_loader : Bool) : Option String :=
  (fsAfter file load_target remove_loader).orig

/-- Result (success or raised `BadFileContents`) of one call. -/
def updateResult (file : Option String) (load_target : String)
    (remove_loader : Bool) : Except BadFileContents Unit :=
  (update_loader_in_script file load_target remove_loader).2

/-- Same as `fileAfter` but with the substituted loader code passed directly. -/
def fileAfterCore (file : Option String) (loader_code : String)
    (remove_loader : Bool) : Option String :=
  (runOps ⟨file, none⟩ (updateLoaderCore file loader_code remove_loader).1).orig

theorem fileAfter_eq_core (file : Option String) (t : String) (r : Bool) :
    fileAfter file t r = fileAfterCore file (mkLoaderCode t) r := rfl

/-! ## Basic string lemmas -/

theorem string_data_append (a b : String) : (a ++ b).data = a.data ++ b.data := by
  cases a; cases b; rfl

theorem string_mk_append (a b : List Char) :
    String.mk a ++ String.mk b = String.mk (a ++ b) := rfl

theorem string_mk_data (s : String) : String.mk s.data = s := by
  cases s; rfl

theorem string_data_inj {a b : String} (h : a.data = b.data) : a = b :=
  congrArg String.mk h

theorem string_append_empty (a : String) : a ++ "" = a :=
  string_data_inj (by simp [string_data_append])

theorem string_empty_append (a : String) : "" ++ a = a :=
  string_data_inj (by simp [string_data_append])

theorem string_append_assoc (a b c : String) : a ++ b ++ c = a ++ (b ++ c) :=
  string_data_inj (by simp [string_data_append])

theorem pyEndsWithNewline_iff (s : String) :
    pyEndsWithNewline s = true ↔ s.data.getLast? = some '\n' := by
  simp [pyEndsWithNewline]

/-! ## Lemmas about Python line splitting -/

theorem mem_of_mem_dropLast {α : Type} {a : α} {l : List α}
    (h : a ∈ l.dropLast) : a ∈ l := by
  induction l with
  | nil => simp at h
  | cons x l ih =>
    cases l with
    | nil => simp at h
    | cons y l =>
      rw [List.dropLast_cons₂] at h
      rcases List.mem_cons.1 h with h | h
      · simp [h]
      · exact List.mem_cons_of_mem _ (ih h)

theorem dropLast_append_singleton {α : Type} (l : List α) (a : α) :
    (l ++ [a]).dropLast = l := by
  simp

theorem getLast?_append_singleton {α : Type} (l : List α) (a : α) :
    (l ++ [a]).getLast? = some a := by
  simp

theorem splitLinesAux_nil (acc : List Char) :
    splitLinesAux [] acc = if acc = [] then [] else [acc.reverse] := rfl

theorem splitLinesAux_cons_nl (cs acc : List Char) :
    splitLinesAux ('\n' :: cs) acc = (acc.reverse ++ ['\n']) :: splitLinesAux cs [] := by
  rw [splitLinesAux]
  simp

theorem splitLinesAux_cons {c : Char} (hc : c ≠ '\n') (cs acc : List Char) :
    splitLinesAux (c :: cs) acc = splitLinesAux cs (c :: acc) := by
  rw [splitLinesAux]
  simp [hc]

theorem splitLinesAux_concat (cs : List Char) : ∀ acc,
    (splitLinesAux cs acc).foldr (fun a b => a ++ b) [] = acc.reverse ++ cs := by
  induction cs with
  | nil =>
    intro acc
    simp only [splitLinesAux]
    split
    · simp_all
    · simp
  | cons c cs ih =>
    intro acc
    simp only [splitLinesAux]
    by_cases h : c = '\n'
    · subst h
      simp [ih]
    · simp only [h, if_false]
      rw [ih (c :: acc)]
      simp

theorem splitLinesAux_append (cs : List Char) (h : cs.getLast? = some '\n')
    (ds : List Char) : ∀ acc,
    splitLinesAux (cs ++ ds) acc = splitLinesAux cs acc ++ splitLinesAux ds [] := by
  induction cs with
  | nil => simp at h
  | cons c cs ih =>
    intro acc
    cases cs with
    | nil =>
      simp only [List.getLast?_singleton, Option.some.injEq] at h
      subst h
      simp [splitLinesAux]
    | cons c' cs' =>
      rw [List.getLast?_cons_cons] at h
      by_cases hc : c = '\n'
      · subst hc
        rw [List.cons_append, splitLinesAux_cons_nl, splitLinesAux_cons_nl, ih h,
          List.cons_append]
      · rw [List.cons_append, splitLinesAux_cons hc, splitLinesAux_cons hc, ih h]

theorem splitLinesAux_no_newline (cs : List Char) (h : ∀ c ∈ cs, c ≠ '\n') :
    ∀ acc, cs ≠ [] ∨ acc ≠ [] → splitLinesAux cs acc = [acc.reverse ++ cs] := by
  induction cs with
  | nil =>
    intro acc hne
    rcases hne with hne | hne
    · simp at hne
    · simp [splitLinesAux, hne]
  | cons c cs ih =>
    intro acc _
    have hc : c ≠ '\n' := h c (by simp)
    simp only [splitLinesAux, hc, if_false]
    rw [ih (fun x hx => h x (List.mem_cons_of_mem _ hx)) (c :: acc) (Or.inr (by simp))]
    simp

theorem splitLinesAux_line (cs : List Char) (h : ∀ c ∈ cs, c ≠ '\n') :
    ∀ acc, splitLinesAux (cs ++ ['\n']) acc = [acc.reverse ++ cs ++ ['\n']] := by
  induction cs with
  | nil => intro acc; simp [splitLinesAux]
  | cons c cs ih =>
    intro acc
    have hc : c ≠ '\n' := h c (by simp)
    rw [List.cons_append, splitLinesAux_cons hc,
      ih (fun x hx => h x (List.mem_cons_of_mem _ hx)) (c :: acc)]
    simp

theorem splitLinesAux_mem_ne_nil (cs : List Char) : ∀ acc,
    ∀ e ∈ splitLinesAux cs acc, e ≠ [] := by
  induction cs with
  | nil =>
    intro acc e he
    simp only [splitLinesAux] at he
    split at he
    · simp at he
    · next hacc =>
      simp only [List.mem_singleton] at he
      subst he
      simpa using hacc
  | cons c cs ih =>
    intro acc e he
    simp only [splitLinesAux] at he
    by_cases hc : c = '\n'
    · simp only [hc, if_true] at he
      rcases List.mem_cons.1 he with h | h
      · subst h; simp
      · exact ih [] e h
    · simp only [hc, if_false] at he
      exact ih (c :: acc) e he

theorem splitLinesAux_mem_interior (cs : List Char) : ∀ acc,
    (∀ c ∈ acc, c ≠ '\n') →
    ∀ e ∈ splitLinesAux cs acc, ∀ c ∈ e.dropLast, c ≠ '\n' := by
  induction cs with
  | nil =>
    intro acc hacc e he c hcmem
    simp only [splitLinesAux] at he
    split at he
    · simp at he
    · simp only [List.mem_singleton] at he
      subst he
      exact hacc c (List.mem_reverse.1 (mem_of_mem_dropLast hcmem))
  | cons ch cs ih =>
    intro acc hacc e he
    simp only [splitLinesAux] at he
    by_cases hc : ch = '\n'
    · simp only [hc, if_true] at he
      rcases List.mem_cons.1 he with h | h
      · subst h
        intro c hcmem
        rw [dropLast_append_singleton] at hcmem
        exact hacc c (List.mem_reverse.1 hcmem)
      · exact ih [] (by simp) e h
    · simp only [hc, if_false] at he
      refine ih (ch :: acc) ?_ e he
      intro x hx
      rcases List.mem_cons.1 hx with h | h
      · subst h; exact hc
      · exact hacc x h

theorem splitLinesAux_dropLast_end (cs : List Char) : ∀ acc,
    ∀ e ∈ (splitLinesAux cs acc).dropLast, e.getLast? = some '\n' := by
  induction cs with
  | nil =>
    intro acc e he
    simp only [splitLinesAux] at he
    split at he <;> simp at he
  | cons c cs ih =>
    intro acc e he
    simp only [splitLinesAux] at he
    by_cases hc : c = '\n'
    · simp only [hc, if_true] at he
      cases hrest : splitLinesAux cs [] with
      | nil => rw [hrest] at he; simp at he
      | cons r rs =>
        rw [hrest, List.dropLast_cons₂] at he
        rcases List.mem_cons.1 he with h | h
        · subst h; exact getLast?_append_singleton _ _
        · exact ih [] e (by rw [hrest]; exact h)
    · simp only [hc, if_false] at he
      exact ih (c :: acc) e he

theorem splitLinesAux_all_end (cs : List Char) (h : cs.getLast? = some '\n') :
    ∀ acc, ∀ e ∈ splitLinesAux cs acc, e.getLast? = some '\n' := by
  induction cs with
  | nil => simp at h
  | cons c cs ih =>
    intro acc e he
    cases cs with
    | nil =>
      simp only [List.getLast?_singleton, Option.some.injEq] at h
      subst h
      simp only [splitLinesAux, if_true] at he
      rcases List.mem_cons.1 he with h' | h'
      · subst h'; exact getLast?_append_singleton _ _
      · simp [splitLinesAux] at h'
    | cons c' cs' =>
      rw [List.getLast?_cons_cons] at h
      simp only [splitLinesAux] at he
      by_cases hc : c = '\n'
      · simp only [hc, if_true] at he
        rcases List.mem_cons.1 he with h' | h'
        · subst h'; exact getLast?_append_singleton _ _
        · exact ih h [] e h'
      · simp only [hc, if_false] at he
        exact ih h (c :: acc) e he

/-! ## String-level line lemmas -/

/-- A string that can occur as one Python line: nonempty, and no newline
character except possibly at the very end. -/
def isLine (s : String) : Prop :=
  s.data ≠ [] ∧ ∀ c ∈ s.data.dropLast, c ≠ '\n'

/-- A Python line with its trailing newline. -/
def completedLine (s : String) : Prop :=
  isLine s ∧ pyEndsWithNewline s = true

instance (s : String) : Decidable (isLine s) := by
  unfold isLine
  infer_instance

instance (s : String) : Decidable (completedLine s) := by
  unfold completedLine
  infer_instance

/-- A list of strings that `pyLines` could have produced: every element is a
line, and all but possibly the last end in a newline. -/
def IsLines (L : List String) : Prop :=
  (∀ l ∈ L, isLine l) ∧ ∀ l ∈ L.dropLast, pyEndsWithNewline l = true

theorem pyLines_empty : pyLines "" = [] := rfl

theorem concatS_nil : concatS [] = "" := rfl

theorem concatS_cons (a : String) (l : List String) :
    concatS (a :: l) = a ++ concatS l := rfl

theorem concatS_append (l1 l2 : List String) :
    concatS (l1 ++ l2) = concatS l1 ++ concatS l2 := by
  induction l1 with
  | nil => simp [concatS_nil, string_empty_append]
  | cons a l1 ih => simp [concatS_cons, ih, string_append_assoc]

theorem concatS_pyLines (s : String) : concatS (pyLines s) = s := by
  have key : ∀ L : List (List Char),
      concatS (L.map String.mk) = String.mk (L.foldr (fun a b => a ++ b) []) := by
    intro L
    induction L with
    | nil => rfl
    | cons a L ih => rw [List.map_cons, concatS_cons, ih, List.foldr_cons, string_mk_append]
  rw [pyLines, key, splitLinesAux_concat]
  simp [string_mk_data]

theorem pyLines_append (a b : String) (h : pyEndsWithNewline a = true) :
    pyLines (a ++ b) = pyLines a ++ pyLines b := by
  rw [pyLines, pyLines, pyLines, string_data_append,
    splitLinesAux_append a.data ((pyEndsWithNewline_iff a).1 h) b.data []]
  simp

theorem pyLines_single (l : String) (h : isLine l) : pyLines (l : String) = [l] := by
  rcases h with ⟨hne, hint⟩
  rw [pyLines]
  cases hl : l.data.getLast? with
  | none => exact absurd (List.getLast?_eq_none_iff.1 hl) hne
  | some c =>
    by_cases hc : c = '\n'
    · subst hc
      have hdecomp : l.data.dropLast ++ ['\n'] = l.data :=
        List.dropLast_append_getLast? _ hl
      rw [← hdecomp, splitLinesAux_line _ hint]
      simp only [List.reverse_nil, List.nil_append, List.map_cons, List.map_nil]
      rw [show String.mk (l.data.dropLast ++ ['\n']) = String.mk l.data by rw [hdecomp],
        string_mk_data]
    · have hall : ∀ ch ∈ l.data, ch ≠ '\n' := by
        intro ch hch
        rw [← List.dropLast_append_getLast? _ hl] at hch
        rcases List.mem_append.1 hch with h' | h'
        · exact hint ch h'
        · simp only [List.mem_singleton] at h'
          subst h'
          exact hc
      rw [splitLinesAux_no_newline _ hall [] (Or.inl hne)]
      simp [string_mk_data]

theorem completedLine_append_cons (l : String) (h : completedLine l) (x : String) :
    pyLines (l ++ x) = l :: pyLines x := by
  rw [pyLines_append l x h.2, pyLines_single l h.1]
  rfl

theorem pyLines_IsLines (s : String) : IsLines (pyLines s) := by
  constructor
  · intro l hl
    rw [pyLines] at hl
    rcases List.mem_map.1 hl with ⟨e, he, rfl⟩
    refine ⟨splitLinesAux_mem_ne_nil _ _ e he, ?_⟩
    exact splitLinesAux_mem_interior _ [] (by simp) e he
  · intro l hl
    rw [pyLines] at hl
    have hmapdrop : ∀ (L : List (List Char)),
        (L.map String.mk).dropLast = L.dropLast.map String.mk := by
      intro L
      induction L with
      | nil => rfl
      | cons a L ih =>
        cases L with
        | nil => rfl
        | cons b L =>
          rw [List.map_cons, List.map_cons, List.dropLast_cons₂, List.dropLast_cons₂,
            List.map_cons]
          rw [List.map_cons] at ih
          rw [ih]
    rw [hmapdrop] at hl
    rcases List.mem_map.1 hl with ⟨e, he, rfl⟩
    rw [pyEndsWithNewline_iff]
    exact splitLinesAux_dropLast_end _ [] e he

theorem pyLines_all_completed (s : String) (h : pyEndsWithNewline s = true) :
    ∀ l ∈ pyLines s, completedLine l := by
  intro l hl
  refine ⟨(pyLines_IsLines s).1 l hl, ?_⟩
  rw [pyLines] at hl
  rcases List.mem_map.1 hl with ⟨e, he, rfl⟩
  rw [pyEndsWithNewline_iff]
  exact splitLinesAux_all_end _ ((pyEndsWithNewline_iff s).1 h) [] e he

theorem pyLines_concatS (L : List String) (h : IsLines L) : pyLines (concatS L) = L := by
  induction L with
  | nil => rfl
  | cons l L ih =>
    rcases h with ⟨hline, hend⟩
    cases L with
    | nil =>
      rw [concatS_cons, concatS_nil, string_append_empty]
      exact pyLines_single l (hline l (by simp))
    | cons l' L' =>
      have hcomp : completedLine l :=
        ⟨hline l (by simp), hend l (by rw [List.dropLast_cons₂]; simp)⟩
      rw [concatS_cons, completedLine_append_cons l hcomp]
      rw [ih ⟨fun x hx => hline x (List.mem_cons_of_mem _ hx),
        fun x hx => hend x (by rw [List.dropLast_cons₂]; exact List.mem_cons_of_mem _ hx)⟩]

/-- Prepending completed lines to a string, at the `pyLines` level. -/
theorem pyLines_concatS_append (P : List String) (hP : ∀ l ∈ P, completedLine l)
    (x : String) : pyLines (concatS P ++ x) = P ++ pyLines x := by
  induction P with
  | nil => rw [concatS_nil, string_empty_append]; rfl
  | cons l P ih =>
    rw [concatS_cons, string_append_assoc, completedLine_append_cons l (hP l (by simp)),
      ih (fun y hy => hP y (List.mem_cons_of_mem _ hy)), List.cons_append]

/-! ## The sentinel structure scanner

`sentinelScanFails lines m` decides the premise of the structural-corruption
claims: scanning the lines with the in-marked-section flag starting at `m`, it
is `true` exactly when a start sentinel occurs inside a marked section, an end
sentinel occurs outside one, or the end of input is reached inside one (the
three conditions of claim C3).
-/

def sentinelScanFails : List String → Bool → Bool
  | [], m => m
  | l :: ls, m =>
    if l = LOADER_START_SENTINEL then (if m then true else sentinelScanFails ls true)
    else if l = LOADER_END_SENTINEL then (if m then sentinelScanFails ls false else true)
    else sentinelScanFails ls m

theorem start_ne_end : LOADER_START_SENTINEL ≠ LOADER_END_SENTINEL := by decide

theorem nl_ne_start : "\n" ≠ LOADER_START_SENTINEL := by decide

theorem nl_ne_end : "\n" ≠ LOADER_END_SENTINEL := by decide

theorem end_ne_nl : LOADER_END_SENTINEL ≠ "\n" := by decide

/-- Expected temp-file writes of the scan once the first sentinel block has
been handled (`old_loader_found = true`): later blocks are deleted, ordinary
lines are copied, and a blank line is glued in after an emitted block when the
next copied line is not already blank.  First flag: `in_marked_section`;
second flag: `just_wrote_loader`. -/
def postW : Bool → Bool → List String → List String
  | _, _, [] => []
  | false, jwl, l :: ls =>
    if l = LOADER_START_SENTINEL then postW true jwl ls
    else (if jwl && decide (l ≠ "\n") then ["\n"] else []) ++ l :: postW false false ls
  | true, jwl, l :: ls =>
    if l = LOADER_END_SENTINEL then postW false jwl ls else postW true jwl ls

/-- Expected temp-file writes of the whole scan from the initial state: copy
lines until the first start sentinel; there, emit the fresh block (unless
removing); afterwards behave like `postW`.  The `String` argument is the
previous line (`"\n"` at the start of the file). -/
def preW (lc : String) (rm : Bool) : String → List String → List String
  | _, [] => []
  | last, l :: ls =>
    if l = LOADER_START_SENTINEL then
      (if rm then []
       else
         (if decide (last ≠ "\n") then ["\n"] else []) ++
           [LOADER_START_SENTINEL, lc, LOADER_END_SENTINEL]) ++ postW true (!rm) ls
    else l :: preW lc rm l ls

theorem postW_nil (m jwl : Bool) : postW m jwl [] = [] := by
  cases m <;> rfl

theorem postW_false_cons (jwl : Bool) (l : String) (ls : List String) :
    postW false jwl (l :: ls) =
      if l = LOADER_START_SENTINEL then postW true jwl ls
      else (if jwl && decide (l ≠ "\n") then ["\n"] else []) ++ l :: postW false false ls := rfl

theorem postW_true_cons (jwl : Bool) (l : String) (ls : List String) :
    postW true jwl (l :: ls) =
      if l = LOADER_END_SENTINEL then postW false jwl ls else postW true jwl ls := rfl

/-! ### One-line step lemmas for the scan -/

theorem stepLine_start_unmarked (lc : String) (rm : Bool) (st : ScanState)
    (hm : st.inMarkedSection = false) :
    stepLine lc rm st LOADER_START_SENTINEL =
      ((if !st.oldLoaderFound && !rm then
          (if decide (st.lastLine ≠ "\n") then [FSOp.writeTemp "\n"] else []) ++
            [FSOp.writeTemp LOADER_START_SENTINEL, FSOp.writeTemp lc,
             FSOp.writeTemp LOADER_END_SENTINEL]
        else []),
       .ok ⟨true, LOADER_START_SENTINEL, true,
         if !st.oldLoaderFound && !rm then true else st.justWroteLoader⟩) := by
  rw [stepLine]
  simp [hm, start_ne_end]

theorem stepLine_start_marked (lc : String) (rm : Bool) (st : ScanState)
    (hm : st.inMarkedSection = true) :
    stepLine lc rm st LOADER_START_SENTINEL =
      ([], .error ⟨"Found a start sentinel without an end sentinel"⟩) := by
  rw [stepLine]
  simp [hm]

theorem stepLine_end_marked (lc : String) (rm : Bool) (st : ScanState)
    (hm : st.inMarkedSection = true) :
    stepLine lc rm st LOADER_END_SENTINEL =
      ([], .ok ⟨st.oldLoaderFound, LOADER_END_SENTINEL, false, st.justWroteLoader⟩) := by
  rw [stepLine]
  simp [hm, start_ne_end.symm]

theorem stepLine_end_unmarked (lc : String) (rm : Bool) (st : ScanState)
    (hm : st.inMarkedSection = false) :
    stepLine lc rm st LOADER_END_SENTINEL =
      ((if st.justWroteLoader && decide (LOADER_END_SENTINEL ≠ "\n") then
          [FSOp.writeTemp "\n"] else []) ++ [FSOp.writeTemp LOADER_END_SENTINEL],
       .error ⟨"Found an end sentinel without a start sentinel"⟩) := by
  rw [stepLine]
  simp [hm, start_ne_end.symm]

theorem stepLine_other_marked (lc : String) (rm : Bool) (st : ScanState) (l : String)
    (hs : l ≠ LOADER_START_SENTINEL) (he : l ≠ LOADER_END_SENTINEL)
    (hm : st.inMarkedSection = true) :
    stepLine lc rm st l =
      ([], .ok ⟨st.oldLoaderFound, l, true, st.justWroteLoader⟩) := by
  rw [stepLine]
  simp [hs, he, hm]

theorem stepLine_other_unmarked (lc : String) (rm : Bool) (st : ScanState) (l : String)
    (hs : l ≠ LOADER_START_SENTINEL) (he : l ≠ LOADER_END_SENTINEL)
    (hm : st.inMarkedSection = false) :
    stepLine lc rm st l =
      ((if st.justWroteLoader && decide (l ≠ "\n") then [FSOp.writeTemp "\n"] else []) ++
        [FSOp.writeTemp l],
       .ok ⟨st.oldLoaderFound, l, false, false⟩) := by
  rw [stepLine]
  simp [hs, he, hm]

theorem scanLines_nil (lc : String) (rm : Bool) (st : ScanState) :
    scanLines lc rm [] st = ([], .ok st) := rfl

theorem scanLines_cons_err (lc : String) (rm : Bool) {st : ScanState} {l : String}
    (ls : List String) {ops : List FSOp} {e : BadFileContents}
    (h : stepLine lc rm st l = (ops, .error e)) :
    scanLines lc rm (l :: ls) st = (ops, .error e) := by
  rw [scanLines, h]

theorem scanLines_cons_ok (lc : String) (rm : Bool) {st st' : ScanState} {l : String}
    (ls : List String) {ops : List FSOp}
    (h : stepLine lc rm st l = (ops, .ok st')) :
    scanLines lc rm (l :: ls) st =
      (ops ++ (scanLines lc rm ls st').1, (scanLines lc rm ls st').2) := by
  rw [scanLines, h]

theorem getLastD_cons_getD {α : Type} (l last : α) (ls : List α) :
    (l :: ls).getLast?.getD last = ls.getLast?.getD l := by
  cases ls with
  | nil => rfl
  | cons x xs =>
    rw [List.getLast?_cons_cons]
    cases h : (x :: xs).getLast? with
    | none => simp [List.getLast?_eq_none_iff] at h
    | some y => rfl

theorem getLastD_cons' {α : Type} (l last : α) (ls : List α) :
    (l :: ls).getLastD last = ls.getLastD l := by
  simp only [List.getLastD_eq_getLast?, getLastD_cons_getD]

theorem scanFails_nil (m : Bool) : sentinelScanFails [] m = m := rfl

theorem scanFails_cons_start (ls : List String) (m : Bool) :
    sentinelScanFails (LOADER_START_SENTINEL :: ls) m =
      if m then true else sentinelScanFails ls true := by
  rw [sentinelScanFails]
  simp

theorem scanFails_cons_end (ls : List String) (m : Bool) :
    sentinelScanFails (LOADER_END_SENTINEL :: ls) m =
      if m then sentinelScanFails ls false else true := by
  rw [sentinelScanFails]
  simp [start_ne_end.symm]

theorem scanFails_cons_other {l : String} (hs : l ≠ LOADER_START_SENTINEL)
    (he : l ≠ LOADER_END_SENTINEL) (ls : List String) (m : Bool) :
    sentinelScanFails (l :: ls) m = sentinelScanFails ls m := by
  rw [sentinelScanFails]
  simp [hs, he]

/-! ### The scan after the first block has been seen -/

theorem scan_post (lc : String) (rm : Bool) (ls : List String) :
    ∀ (m : Bool) (last : String) (jwl : Bool),
      sentinelScanFails ls m = false →
      ∃ jwl', scanLines lc rm ls ⟨true, last, m, jwl⟩ =
        ((postW m jwl ls).map FSOp.writeTemp,
          .ok ⟨true, ls.getLastD last, false, jwl'⟩) := by
  induction ls with
  | nil =>
    intro m last jwl h
    rw [scanFails_nil] at h
    subst h
    exact ⟨jwl, by rw [scanLines_nil, postW_nil]; rfl⟩
  | cons l ls ih =>
    intro m last jwl h
    by_cases hs : l = LOADER_START_SENTINEL
    · subst hs
      cases m with
      | true => rw [scanFails_cons_start] at h; simp at h
      | false =>
        rw [scanFails_cons_start, if_neg (by simp)] at h
        have hstep := stepLine_start_unmarked lc rm ⟨true, last, false, jwl⟩ rfl
        simp only [Bool.not_true, Bool.false_and, if_false, Bool.false_eq_true] at hstep
        obtain ⟨jwl', hrec⟩ := ih true LOADER_START_SENTINEL jwl h
        refine ⟨jwl', ?_⟩
        rw [scanLines_cons_ok lc rm ls hstep, hrec]
        rw [postW_false_cons, if_pos rfl]
        simp [getLastD_cons_getD]
    · by_cases he : l = LOADER_END_SENTINEL
      · subst he
        cases m with
        | false => rw [scanFails_cons_end, if_neg (by simp)] at h; simp at h
        | true =>
          rw [scanFails_cons_end, if_pos rfl] at h
          have hstep := stepLine_end_marked lc rm ⟨true, last, true, jwl⟩ rfl
          obtain ⟨jwl', hrec⟩ := ih false LOADER_END_SENTINEL jwl h
          refine ⟨jwl', ?_⟩
          rw [scanLines_cons_ok lc rm ls hstep, hrec]
          rw [postW_true_cons, if_pos rfl]
          simp [getLastD_cons_getD]
      · cases m with
        | true =>
          rw [scanFails_cons_other hs he] at h
          have hstep := stepLine_other_marked lc rm ⟨true, last, true, jwl⟩ l hs he rfl
          obtain ⟨jwl', hrec⟩ := ih true l jwl h
          refine ⟨jwl', ?_⟩
          rw [scanLines_cons_ok lc rm ls hstep, hrec]
          rw [postW_true_cons, if_neg he]
          simp [getLastD_cons_getD]
        | false =>
          rw [scanFails_cons_other hs he] at h
          have hstep := stepLine_other_unmarked lc rm ⟨true, last, false, jwl⟩ l hs he rfl
          obtain ⟨jwl', hrec⟩ := ih false l false h
          refine ⟨jwl', ?_⟩
          rw [scanLines_cons_ok lc rm ls hstep, hrec]
          rw [postW_false_cons, if_neg hs]
          cases jwl <;> by_cases hnl : l = "\n" <;> simp [hnl, getLastD_cons_getD]

/-! ### The scan from the initial state -/

theorem map_writeTemp_ite {c : Prop} [Decidable c] :
    (if c then ["\n"] else []).map FSOp.writeTemp =
      if c then [FSOp.writeTemp "\n"] else [] := by
  split <;> rfl

theorem preW_nil (lc : String) (rm : Bool) (last : String) :
    preW lc rm last [] = [] := rfl

theorem preW_cons_start_rm (lc : String) (last : String) (ls : List String) :
    preW lc true last (LOADER_START_SENTINEL :: ls) = postW true false ls := by
  rw [preW]
  simp

theorem preW_cons_start_ins (lc : String) (last : String) (ls : List String) :
    preW lc false last (LOADER_START_SENTINEL :: ls) =
      ((if decide (last ≠ "\n") = true then ["\n"] else []) ++
        [LOADER_START_SENTINEL, lc, LOADER_END_SENTINEL]) ++ postW true true ls := by
  rw [preW]
  simp

theorem preW_cons_other (lc : String) (rm : Bool) (last : String) {l : String}
    (hs : l ≠ LOADER_START_SENTINEL) (ls : List String) :
    preW lc rm last (l :: ls) = l :: preW lc rm l ls := by
  rw [preW]
  simp [hs]

theorem scan_pre (lc : String) (rm : Bool) (ls : List String) :
    ∀ last : String,
      sentinelScanFails ls false = false →
      ∃ jwl', scanLines lc rm ls ⟨false, last, false, false⟩ =
        ((preW lc rm last ls).map FSOp.writeTemp,
          .ok ⟨decide (LOADER_START_SENTINEL ∈ ls), ls.getLastD last, false, jwl'⟩) := by
  induction ls with
  | nil =>
    intro last h
    exact ⟨false, by rw [scanLines_nil]; simp [preW]⟩
  | cons l ls ih =>
    intro last h
    by_cases hs : l = LOADER_START_SENTINEL
    · subst hs
      rw [scanFails_cons_start, if_neg (by simp)] at h
      have hstep := stepLine_start_unmarked lc rm ⟨false, last, false, false⟩ rfl
      simp only [Bool.not_false, Bool.true_and] at hstep
      obtain ⟨jwl', hrec⟩ := scan_post lc rm ls true LOADER_START_SENTINEL (!rm) h
      cases rm with
      | true =>
        simp only [Bool.not_true, if_false, Bool.false_eq_true] at hstep
        refine ⟨jwl', ?_⟩
        rw [scanLines_cons_ok lc true ls hstep]
        simp only [Bool.not_true] at hrec
        rw [hrec, preW_cons_start_rm]
        simp [getLastD_cons_getD]
      | false =>
        simp only [Bool.not_false, if_true] at hstep
        refine ⟨jwl', ?_⟩
        rw [scanLines_cons_ok lc false ls hstep]
        simp only [Bool.not_false] at hrec
        rw [hrec, preW_cons_start_ins, List.map_append, List.map_append, map_writeTemp_ite]
        simp [getLastD_cons_getD]
    · have he : l ≠ LOADER_END_SENTINEL := by
        intro hE
        subst hE
        rw [scanFails_cons_end, if_neg (by simp)] at h
        simp at h
      rw [scanFails_cons_other hs he] at h
      have hstep := stepLine_other_unmarked lc rm ⟨false, last, false, false⟩ l hs he rfl
      simp only [Bool.false_and, if_false, List.nil_append, Bool.false_eq_true] at hstep
      obtain ⟨jwl', hrec⟩ := ih l h
      refine ⟨jwl', ?_⟩
      rw [scanLines_cons_ok lc rm ls hstep, hrec]
      rw [preW_cons_other lc rm last hs]
      have hdec : decide (LOADER_START_SENTINEL ∈ (l :: ls)) =
          decide (LOADER_START_SENTINEL ∈ ls) := by
        rw [decide_eq_decide]
        constructor
        · intro hm
          rcases List.mem_cons.1 hm with hEq | hm'
          · exact absurd hEq.symm hs
          · exact hm'
        · exact fun hm => List.mem_cons_of_mem _ hm
      rw [hdec, getLastD_cons']
      simp

/-! ### The scan on structurally bad input -/

theorem scan_err (lc : String) (rm : Bool) (ls : List String) :
    ∀ st : ScanState,
      sentinelScanFails ls st.inMarkedSection = true →
      (∃ ops e, scanLines lc rm ls st = (ops, .error e)) ∨
      (∃ ops st', scanLines lc rm ls st = (ops, .ok st') ∧ st'.inMarkedSection = true) := by
  induction ls with
  | nil =>
    intro st h
    rw [scanFails_nil] at h
    exact Or.inr ⟨[], st, scanLines_nil lc rm st, h⟩
  | cons l ls ih =>
    intro st h
    by_cases hs : l = LOADER_START_SENTINEL
    · subst hs
      cases hm : st.inMarkedSection with
      | true =>
        exact Or.inl ⟨[], _, scanLines_cons_err lc rm ls (stepLine_start_marked lc rm st hm)⟩
      | false =>
        rw [hm, scanFails_cons_start, if_neg (by simp)] at h
        have hstep := stepLine_start_unmarked lc rm st hm
        rcases ih ⟨true, LOADER_START_SENTINEL, true,
            if !st.oldLoaderFound && !rm then true else st.justWroteLoader⟩ h with
          ⟨ops, e, hrec⟩ | ⟨ops, st', hrec, hmark⟩
        · exact Or.inl ⟨_, e, by rw [scanLines_cons_ok lc rm ls hstep, hrec]⟩
        · exact Or.inr ⟨_, st', by rw [scanLines_cons_ok lc rm ls hstep, hrec], hmark⟩
    · by_cases he : l = LOADER_END_SENTINEL
      · subst he
        cases hm : st.inMarkedSection with
        | false =>
          exact Or.inl ⟨_, _, scanLines_cons_err lc rm ls (stepLine_end_unmarked lc rm st hm)⟩
        | true =>
          rw [hm, scanFails_cons_end, if_pos rfl] at h
          have hstep := stepLine_end_marked lc rm st hm
          rcases ih ⟨st.oldLoaderFound, LOADER_END_SENTINEL, false, st.justWroteLoader⟩ h with
            ⟨ops, e, hrec⟩ | ⟨ops, st', hrec, hmark⟩
          · exact Or.inl ⟨_, e, by rw [scanLines_cons_ok lc rm ls hstep, hrec]⟩
          · exact Or.inr ⟨_, st', by rw [scanLines_cons_ok lc rm ls hstep, hrec], hmark⟩
      · rw [scanFails_cons_other hs he] at h
        cases hm : st.inMarkedSection with
        | true =>
          have hstep := stepLine_other_marked lc rm st l hs he hm
          rw [hm] at h
          rcases ih ⟨st.oldLoaderFound, l, true, st.justWroteLoader⟩ h with
            ⟨ops, e, hrec⟩ | ⟨ops, st', hrec, hmark⟩
          · exact Or.inl ⟨_, e, by rw [scanLines_cons_ok lc rm ls hstep, hrec]⟩
          · exact Or.inr ⟨_, st', by rw [scanLines_cons_ok lc rm ls hstep, hrec], hmark⟩
        | false =>
          have hstep := stepLine_other_unmarked lc rm st l hs he hm
          rw [hm] at h
          rcases ih ⟨st.oldLoaderFound, l, false, false⟩ h with
            ⟨ops, e, hrec⟩ | ⟨ops, st', hrec, hmark⟩
          · exact Or.inl ⟨_, e, by rw [scanLines_cons_ok lc rm ls hstep, hrec]⟩
          · exact Or.inr ⟨_, st', by rw [scanLines_cons_ok lc rm ls hstep, hrec], hmark⟩

/-! ### All scan operations are temp-file writes -/

theorem mem_ite_writeTemp {c : Prop} [Decidable c] {op : FSOp} {x : String}
    (h : op ∈ (if c then [FSOp.writeTemp x] else [])) : ∃ d, op = FSOp.writeTemp d := by
  split at h
  · simp only [List.mem_singleton] at h
    exact ⟨x, h⟩
  · simp at h

theorem stepLine_ops_writeTemp (lc : String) (rm : Bool) (st : ScanState) (l : String) :
    ∀ op ∈ (stepLine lc rm st l).1, ∃ d, op = FSOp.writeTemp d := by
  intro op hop
  by_cases hs : l = LOADER_START_SENTINEL
  · subst hs
    cases hm : st.inMarkedSection with
    | true => rw [stepLine_start_marked lc rm st hm] at hop; simp at hop
    | false =>
      rw [stepLine_start_unmarked lc rm st hm] at hop
      split at hop
      · rcases List.mem_append.1 hop with h | h
        · exact mem_ite_writeTemp h
        · simp only [List.mem_cons, List.not_mem_nil, or_false] at h
          rcases h with rfl | rfl | rfl <;> exact ⟨_, rfl⟩
      · simp at hop
  · by_cases he : l = LOADER_END_SENTINEL
    · subst he
      cases hm : st.inMarkedSection with
      | true => rw [stepLine_end_marked lc rm st hm] at hop; simp at hop
      | false =>
        rw [stepLine_end_unmarked lc rm st hm] at hop
        rcases List.mem_append.1 hop with h | h
        · exact mem_ite_writeTemp h
        · simp only [List.mem_singleton] at h
          exact ⟨_, h⟩
    · cases hm : st.inMarkedSection with
      | true => rw [stepLine_other_marked lc rm st l hs he hm] at hop; simp at hop
      | false =>
        rw [stepLine_other_unmarked lc rm st l hs he hm] at hop
        rcases List.mem_append.1 hop with h | h
        · exact mem_ite_writeTemp h
        · simp only [List.mem_singleton] at h
          exact ⟨_, h⟩

/-! ### Structural lemmas about `postW` and `preW` -/

theorem postW_no_start (ls : List String) : ∀ m jwl : Bool,
    LOADER_START_SENTINEL ∉ postW m jwl ls := by
  induction ls with
  | nil => intro m jwl h; rw [postW_nil] at h; simp at h
  | cons l ls ih =>
    intro m jwl h
    cases m with
    | true =>
      rw [postW_true_cons] at h
      split at h
      · exact ih false jwl h
      · exact ih true jwl h
    | false =>
      rw [postW_false_cons] at h
      split at h
      · exact ih true jwl h
      · rcases List.mem_append.1 h with h' | h'
        · split at h'
          · simp only [List.mem_singleton] at h'
            exact nl_ne_start h'.symm
          · simp at h'
        · rcases List.mem_cons.1 h' with h'' | h''
          · next hs => exact hs h''.symm
          · exact ih false false h''

theorem postW_no_end (ls : List String) : ∀ m jwl : Bool,
    sentinelScanFails ls m = false → LOADER_END_SENTINEL ∉ postW m jwl ls := by
  induction ls with
  | nil => intro m jwl _ h; rw [postW_nil] at h; simp at h
  | cons l ls ih =>
    intro m jwl hscan h
    by_cases hs : l = LOADER_START_SENTINEL
    · subst hs
      cases m with
      | true => rw [scanFails_cons_start, if_pos rfl] at hscan; simp at hscan
      | false =>
        rw [scanFails_cons_start, if_neg (by simp)] at hscan
        rw [postW_false_cons, if_pos rfl] at h
        exact ih true jwl hscan h
    · by_cases he : l = LOADER_END_SENTINEL
      · subst he
        cases m with
        | false => rw [scanFails_cons_end, if_neg (by simp)] at hscan; simp at hscan
        | true =>
          rw [scanFails_cons_end, if_pos rfl] at hscan
          rw [postW_true_cons, if_pos rfl] at h
          exact ih false jwl hscan h
      · rw [scanFails_cons_other hs he] at hscan
        cases m with
        | true =>
          rw [postW_true_cons, if_neg he] at h
          exact ih true jwl hscan h
        | false =>
          rw [postW_false_cons, if_neg hs] at h
          rcases List.mem_append.1 h with h' | h'
          · split at h'
            · simp only [List.mem_singleton] at h'
              exact nl_ne_end h'.symm
            · simp at h'
          · rcases List.mem_cons.1 h' with h'' | h''
            · exact he h''.symm
            · exact ih false false hscan h''

theorem postW_head_true (ls : List String) : ∀ m : Bool,
    postW m true ls = [] ∨ (postW m true ls).head? = some "\n" := by
  induction ls with
  | nil => intro m; left; exact postW_nil m true
  | cons l ls ih =>
    intro m
    cases m with
    | true =>
      rw [postW_true_cons]
      split
      · exact ih false
      · exact ih true
    | false =>
      rw [postW_false_cons]
      split
      · exact ih true
      · by_cases hnl : l = "\n"
        · subst hnl
          right
          simp
        · right
          simp [hnl]

theorem postW_plain_id (ls : List String) (h : LOADER_START_SENTINEL ∉ ls) :
    postW false false ls = ls := by
  induction ls with
  | nil => exact postW_nil false false
  | cons l ls ih =>
    have hs : l ≠ LOADER_START_SENTINEL := fun hc => h (by simp [hc])
    rw [postW_false_cons, if_neg hs]
    simp only [Bool.false_and, if_false, List.nil_append, Bool.false_eq_true]
    rw [ih (fun hc => h (List.mem_cons_of_mem _ hc))]

theorem postW_marked_append (body : List String) (h : LOADER_END_SENTINEL ∉ body) :
    ∀ (jwl : Bool) (T : List String),
      postW true jwl (body ++ LOADER_END_SENTINEL :: T) = postW false jwl T := by
  induction body with
  | nil => intro jwl T; rw [List.nil_append, postW_true_cons, if_pos rfl]
  | cons b body ih =>
    intro jwl T
    have hb : b ≠ LOADER_END_SENTINEL := fun hc => h (by simp [hc])
    rw [List.cons_append, postW_true_cons, if_neg hb]
    exact ih (fun hc => h (List.mem_cons_of_mem _ hc)) jwl T

theorem postW_mem (ls : List String) : ∀ (m jwl : Bool) (x : String),
    x ∈ postW m jwl ls → x = "\n" ∨ x ∈ ls := by
  induction ls with
  | nil => intro m jwl x h; rw [postW_nil] at h; simp at h
  | cons l ls ih =>
    intro m jwl x h
    cases m with
    | true =>
      rw [postW_true_cons] at h
      split at h
      · rcases ih false jwl x h with h' | h'
        · exact Or.inl h'
        · exact Or.inr (List.mem_cons_of_mem _ h')
      · rcases ih true jwl x h with h' | h'
        · exact Or.inl h'
        · exact Or.inr (List.mem_cons_of_mem _ h')
    | false =>
      rw [postW_false_cons] at h
      split at h
      · rcases ih true jwl x h with h' | h'
        · exact Or.inl h'
        · exact Or.inr (List.mem_cons_of_mem _ h')
      · rcases List.mem_append.1 h with h' | h'
        · split at h'
          · simp only [List.mem_singleton] at h'
            exact Or.inl h'
          · simp at h'
        · rcases List.mem_cons.1 h' with h'' | h''
          · exact Or.inr (by simp [h''])
          · rcases ih false false x h'' with h3 | h3
            · exact Or.inl h3
            · exact Or.inr (List.mem_cons_of_mem _ h3)

theorem preW_no_start (lc : String) (rm : Bool) (ls : List String)
    (h : LOADER_START_SENTINEL ∉ ls) : ∀ last, preW lc rm last ls = ls := by
  induction ls with
  | nil => intro last; rfl
  | cons l ls ih =>
    intro last
    have hs : l ≠ LOADER_START_SENTINEL := fun hc => h (by simp [hc])
    rw [preW_cons_other lc rm last hs, ih (fun hc => h (List.mem_cons_of_mem _ hc))]

theorem preW_plain_append (lc : String) (rm : Bool) (P : List String)
    (h : LOADER_START_SENTINEL ∉ P) : ∀ (last : String) (T : List String),
    preW lc rm last (P ++ T) = P ++ preW lc rm (P.getLastD last) T := by
  induction P with
  | nil => intro last T; simp
  | cons p P ih =>
    intro last T
    have hs : p ≠ LOADER_START_SENTINEL := fun hc => h (by simp [hc])
    rw [List.cons_append, preW_cons_other lc rm last hs,
      ih (fun hc => h (List.mem_cons_of_mem _ hc)), getLastD_cons', List.cons_append]

/-! ### `sentinelScanFails` decomposition lemmas -/

theorem scanFails_plain_append (P : List String)
    (h : ∀ l ∈ P, l ≠ LOADER_START_SENTINEL ∧ l ≠ LOADER_END_SENTINEL) :
    ∀ (T : List String) (m : Bool),
      sentinelScanFails (P ++ T) m = sentinelScanFails T m := by
  induction P with
  | nil => intro T m; rfl
  | cons p P ih =>
    intro T m
    obtain ⟨hs, he⟩ := h p (by simp)
    rw [List.cons_append, scanFails_cons_other hs he,
      ih (fun l hl => h l (List.mem_cons_of_mem _ hl))]

theorem scanFails_split (P : List String) (hP : LOADER_START_SENTINEL ∉ P) :
    ∀ rest : List String,
      sentinelScanFails (P ++ LOADER_START_SENTINEL :: rest) false = false →
      (LOADER_END_SENTINEL ∉ P ∧ sentinelScanFails rest true = false) := by
  induction P with
  | nil =>
    intro rest h
    rw [List.nil_append, scanFails_cons_start, if_neg (by simp)] at h
    exact ⟨by simp, h⟩
  | cons p P ih =>
    intro rest h
    have hs : p ≠ LOADER_START_SENTINEL := fun hc => hP (by simp [hc])
    rw [List.cons_append] at h
    by_cases he : p = LOADER_END_SENTINEL
    · subst he
      rw [scanFails_cons_end, if_neg (by simp)] at h
      simp at h
    · rw [scanFails_cons_other hs he] at h
      obtain ⟨hne, hrest⟩ := ih (fun hc => hP (List.mem_cons_of_mem _ hc)) rest h
      refine ⟨?_, hrest⟩
      intro hc
      rcases List.mem_cons.1 hc with hc' | hc'
      · exact he hc'.symm
      · exact hne hc'

theorem no_end_of_scan_ok (ls : List String) :
    sentinelScanFails ls false = false → LOADER_START_SENTINEL ∉ ls →
    LOADER_END_SENTINEL ∉ ls := by
  induction ls with
  | nil => intro _ _ h; simp at h
  | cons l ls ih =>
    intro hscan hstart h
    have hs : l ≠ LOADER_START_SENTINEL := fun hc => hstart (by simp [hc])
    by_cases he : l = LOADER_END_SENTINEL
    · subst he
      rw [scanFails_cons_end, if_neg (by simp)] at hscan
      simp at hscan
    · rw [scanFails_cons_other hs he] at hscan
      rcases List.mem_cons.1 h with h' | h'
      · exact he h'.symm
      · exact ih hscan (fun hc => hstart (List.mem_cons_of_mem _ hc)) h'

theorem first_start_decomp (L : List String) (h : LOADER_START_SENTINEL ∈ L) :
    ∃ rest, L = L.takeWhile (fun l => l ≠ LOADER_START_SENTINEL) ++
      LOADER_START_SENTINEL :: rest ∧
      LOADER_START_SENTINEL ∉ L.takeWhile (fun l => l ≠ LOADER_START_SENTINEL) := by
  induction L with
  | nil => simp at h
  | cons l L ih =>
    by_cases hs : l = LOADER_START_SENTINEL
    · subst hs
      refine ⟨L, ?_, ?_⟩
      · rw [List.takeWhile_cons]
        simp
      · rw [List.takeWhile_cons]
        simp
    · have h' : LOADER_START_SENTINEL ∈ L := by
        rcases List.mem_cons.1 h with h' | h'
        · exact absurd h'.symm hs
        · exact h'
      obtain ⟨rest, hdecomp, hnotin⟩ := ih h'
      refine ⟨rest, ?_, ?_⟩
      · rw [List.takeWhile_cons, if_pos (by simp [hs]), List.cons_append]
        rw [← hdecomp]
      · rw [List.takeWhile_cons, if_pos (by simp [hs])]
        intro hc
        rcases List.mem_cons.1 hc with hc' | hc'
        · exact hs hc'.symm
        · exact hnotin hc'

/-! ### Running operation lists against the two-file state -/

theorem runOps_nil (fs : FS) : runOps fs [] = fs := rfl

theorem runOps_cons (fs : FS) (op : FSOp) (ops : List FSOp) :
    runOps fs (op :: ops) = runOps (applyOp fs op) ops := rfl

theorem runOps_append (fs : FS) (a b : List FSOp) :
    runOps fs (a ++ b) = runOps (runOps fs a) b := by
  rw [runOps, runOps, runOps, List.foldl_append]

theorem runOps_writeTemps (ws : List String) : ∀ (o : Option String) (t : String),
    runOps ⟨o, some t⟩ (ws.map FSOp.writeTemp) = ⟨o, some (t ++ concatS ws)⟩ := by
  induction ws with
  | nil =>
    intro o t
    rw [List.map_nil, runOps_nil, concatS_nil, string_append_empty]
  | cons w ws ih =>
    intro o t
    rw [List.map_cons, runOps_cons]
    show runOps ⟨o, some (t ++ w)⟩ (ws.map FSOp.writeTemp) = _
    rw [ih o (t ++ w), concatS_cons, string_append_assoc]

theorem runOps_tempOnly_orig (ops : List FSOp)
    (h : ∀ op ∈ ops, op = FSOp.createTemp ∨ ∃ d, op = FSOp.writeTemp d) :
    ∀ fs : FS, (runOps fs ops).orig = fs.orig := by
  induction ops with
  | nil => intro fs; rfl
  | cons op ops ih =>
    intro fs
    rcases h op (by simp) with rfl | ⟨d, rfl⟩
    · rw [runOps_cons, ih (fun o ho => h o (List.mem_cons_of_mem _ ho))]
      rfl
    · rw [runOps_cons, ih (fun o ho => h o (List.mem_cons_of_mem _ ho))]
      rfl

theorem scanLines_ops_writeTemp (lc : String) (rm : Bool) (ls : List String) :
    ∀ st : ScanState, ∀ op ∈ (scanLines lc rm ls st).1, ∃ d, op = FSOp.writeTemp d := by
  induction ls with
  | nil => intro st op hop; rw [scanLines_nil] at hop; simp at hop
  | cons l ls ih =>
    intro st op hop
    rcases hstep : stepLine lc rm st l with ⟨ops, res⟩
    cases res with
    | error e =>
      rw [scanLines_cons_err lc rm ls hstep] at hop
      have := stepLine_ops_writeTemp lc rm st l op (by rw [hstep]; exact hop)
      exact this
    | ok st' =>
      rw [scanLines_cons_ok lc rm ls hstep] at hop
      simp only [List.mem_append] at hop
      rcases hop with hop | hop
      · exact stepLine_ops_writeTemp lc rm st l op (by rw [hstep]; exact hop)
      · exact ih st' op hop

/-! ## Top-level characterizations of `updateLoaderCore` -/

/-- The blank-line glue written by the append branch (bashrc.py lines 189-192). -/
def appendGlue (last : String) : String :=
  if !pyEndsWithNewline last then "\n\n" else if last ≠ "\n" then "\n" else ""

theorem core_none_rm (lc : String) : updateLoaderCore none lc true = ([], .ok ()) := rfl

theorem core_none_ins (lc : String) :
    updateLoaderCore none lc false =
      ([FSOp.createOrig (BASH_SHEBANG ++ "\n" ++ LOADER_START_SENTINEL ++ lc ++
        LOADER_END_SENTINEL)], .ok ()) := rfl

theorem core_some_err {s lc : String} {rm : Bool} {ops : List FSOp} {e : BadFileContents}
    (h : scanLines lc rm (pyLines s) initialScanState = (ops, .error e)) :
    updateLoaderCore (some s) lc rm = (FSOp.createTemp :: ops, .error e) := by
  simp only [updateLoaderCore]
  rw [h]

theorem core_some_ok_marked {s lc : String} {rm : Bool} {ops : List FSOp} {st : ScanState}
    (h : scanLines lc rm (pyLines s) initialScanState = (ops, .ok st))
    (hm : st.inMarkedSection = true) :
    updateLoaderCore (some s) lc rm =
      (FSOp.createTemp :: ops,
       .error ⟨"Found a start sentinel without an end sentinel"⟩) := by
  simp only [updateLoaderCore]
  rw [h]
  simp [hm]

theorem core_some_ok_found {s lc : String} {rm : Bool} {ops : List FSOp} {st : ScanState}
    (h : scanLines lc rm (pyLines s) initialScanState = (ops, .ok st))
    (hm : st.inMarkedSection = false) (hf : st.oldLoaderFound = true) :
    updateLoaderCore (some s) lc rm =
      (FSOp.createTemp :: ops ++ [FSOp.removeOrig, FSOp.renameTempToOrig], .ok ()) := by
  simp only [updateLoaderCore]
  rw [h]
  simp [hm, hf]

theorem core_some_ok_nofound {s lc : String} {rm : Bool} {ops : List FSOp} {st : ScanState}
    (h : scanLines lc rm (pyLines s) initialScanState = (ops, .ok st))
    (hm : st.inMarkedSection = false) (hf : st.oldLoaderFound = false) :
    updateLoaderCore (some s) lc rm =
      (FSOp.createTemp :: ops ++ [FSOp.removeTemp] ++
        (if rm then []
         else [FSOp.appendOrig (appendGlue st.lastLine ++ LOADER_START_SENTINEL ++ lc ++
           LOADER_END_SENTINEL)]), .ok ()) := by
  simp only [updateLoaderCore, appendGlue]
  rw [h]
  simp [hm, hf]

/-! ### The effect of the three successful trace shapes -/

theorem runOps_replace_shape (o : Option String) (ws : List String) :
    runOps ⟨o, none⟩ (FSOp.createTemp :: ws.map FSOp.writeTemp ++
      [FSOp.removeOrig, FSOp.renameTempToOrig]) = ⟨some (concatS ws), none⟩ := by
  rw [List.cons_append, runOps_cons]
  show runOps ⟨o, some ""⟩ _ = _
  rw [runOps_append, runOps_writeTemps, string_empty_append]
  rfl

theorem runOps_discard_shape (o : Option String) (ws : List String) :
    runOps ⟨o, none⟩ (FSOp.createTemp :: ws.map FSOp.writeTemp ++ [FSOp.removeTemp]) =
      ⟨o, none⟩ := by
  rw [List.cons_append, runOps_cons]
  show runOps ⟨o, some ""⟩ _ = _
  rw [runOps_append, runOps_writeTemps]
  rfl

theorem runOps_appendOrig_shape (s d : String) (ws : List String) :
    runOps ⟨some s, none⟩ (FSOp.createTemp :: ws.map FSOp.writeTemp ++
      [FSOp.removeTemp, FSOp.appendOrig d]) = ⟨some (s ++ d), none⟩ := by
  rw [List.cons_append, runOps_cons]
  show runOps ⟨some s, some ""⟩ _ = _
  rw [runOps_append, runOps_writeTemps]
  rfl

/-! ### Outcome of one call, by case -/

/-- A structurally corrupt file: the call raises and the file is unchanged. -/
theorem update_err (s lc : String) (rm : Bool)
    (h : sentinelScanFails (pyLines s) false = true) :
    (∃ e, (updateLoaderCore (some s) lc rm).2 = .error e) ∧
      fileAfterCore (some s) lc rm = some s := by
  have hops : ∀ (ops : List FSOp),
      (∀ op ∈ ops, ∃ d, op = FSOp.writeTemp d) →
      (runOps ⟨some s, none⟩ (FSOp.createTemp :: ops)).orig = some s := by
    intro ops hws
    apply runOps_tempOnly_orig
    intro op hop
    rcases List.mem_cons.1 hop with rfl | hop'
    · exact Or.inl rfl
    · exact Or.inr (hws op hop')
  rcases scan_err lc rm (pyLines s) initialScanState h with
    ⟨ops, e, hscan⟩ | ⟨ops, st, hscan, hmark⟩
  · refine ⟨⟨e, by rw [core_some_err hscan]⟩, ?_⟩
    rw [fileAfterCore, core_some_err hscan]
    exact hops ops (fun op hop =>
      scanLines_ops_writeTemp lc rm (pyLines s) initialScanState op (by rw [hscan]; exact hop))
  · refine ⟨⟨_, by rw [core_some_ok_marked hscan hmark]⟩, ?_⟩
    rw [fileAfterCore, core_some_ok_marked hscan hmark]
    exact hops ops (fun op hop =>
      scanLines_ops_writeTemp lc rm (pyLines s) initialScanState op (by rw [hscan]; exact hop))

/-- A well-formed file that contains a sentinel block: the temp file is
written with `preW` and renamed over the original. -/
theorem update_replace (s lc : String) (rm : Bool)
    (hscanok : sentinelScanFails (pyLines s) false = false)
    (hmem : LOADER_START_SENTINEL ∈ pyLines s) :
    updateLoaderCore (some s) lc rm =
      (FSOp.createTemp :: (preW lc rm "\n" (pyLines s)).map FSOp.writeTemp ++
        [FSOp.removeOrig, FSOp.renameTempToOrig], .ok ()) ∧
    fileAfterCore (some s) lc rm = some (concatS (preW lc rm "\n" (pyLines s))) := by
  obtain ⟨jwl', hscan⟩ := scan_pre lc rm (pyLines s) "\n" hscanok
  have hcore := core_some_ok_found hscan rfl (by simp [hmem])
  refine ⟨hcore, ?_⟩
  rw [fileAfterCore, hcore]
  rw [runOps_replace_shape]

/-- A well-formed, sentinel-free file: the temp file is discarded, and with
`remove_loader = false` the fresh block is appended in place. -/
theorem update_plain (s lc : String) (rm : Bool)
    (hscanok : sentinelScanFails (pyLines s) false = false)
    (hnomem : LOADER_START_SENTINEL ∉ pyLines s) :
    updateLoaderCore (some s) lc rm =
      (FSOp.createTemp :: (pyLines s).map FSOp.writeTemp ++ [FSOp.removeTemp] ++
        (if rm then []
         else [FSOp.appendOrig (appendGlue ((pyLines s).getLastD "\n") ++
           LOADER_START_SENTINEL ++ lc ++ LOADER_END_SENTINEL)]), .ok ()) ∧
    fileAfterCore (some s) lc rm =
      some (if rm then s
        else s ++ (appendGlue ((pyLines s).getLastD "\n") ++
          LOADER_START_SENTINEL ++ lc ++ LOADER_END_SENTINEL)) := by
  obtain ⟨jwl', hscan⟩ := scan_pre lc rm (pyLines s) "\n" hscanok
  rw [preW_no_start lc rm (pyLines s) hnomem] at hscan
  have hcore := core_some_ok_nofound hscan rfl (by simp [hnomem])
  refine ⟨hcore, ?_⟩
  rw [fileAfterCore, hcore]
  cases rm with
  | true =>
    simp only [if_true]
    rw [List.append_nil, runOps_discard_shape]
  | false =>
    simp only [Bool.false_eq_true, if_false]
    rw [List.append_assoc, List.singleton_append, runOps_appendOrig_shape]

/-! ## The canonical form produced by an insertion, and rescanning it -/

/-- Hypotheses on the substituted loader code under which the editor's
higher-level properties hold: none of its lines is a sentinel line, and it
ends with a newline.  This holds for every load target without a newline
character (in particular for every ordinary path); it is decidable and is
checked by `decide` for the concrete targets in the witnesses. -/
def LoaderOK (lc : String) : Prop :=
  LOADER_START_SENTINEL ∉ pyLines lc ∧ LOADER_END_SENTINEL ∉ pyLines lc ∧
    pyEndsWithNewline lc = true

instance (lc : String) : Decidable (LoaderOK lc) := by
  unfold LoaderOK
  infer_instance

theorem completed_start : completedLine LOADER_START_SENTINEL := by decide

theorem completed_end : completedLine LOADER_END_SENTINEL := by decide

theorem completed_nl : completedLine "\n" := by decide

theorem completed_shebang : completedLine BASH_SHEBANG := by decide

/-- Scanning a file of the shape `P ++ START ++ loader ++ END ++ R` — the
shape every successful insertion produces — succeeds, and yields `P ++ R`
when removing and the file itself when inserting. -/
theorem scan_canonical (lc : String) (rm : Bool) (P R : List String)
    (hPc : ∀ l ∈ P, completedLine l)
    (hPs : ∀ l ∈ P, l ≠ LOADER_START_SENTINEL ∧ l ≠ LOADER_END_SENTINEL)
    (hPlast : P.getLastD "\n" = "\n")
    (hlc : LoaderOK lc)
    (hRs : LOADER_START_SENTINEL ∉ R) (hRe : LOADER_END_SENTINEL ∉ R)
    (hRlines : ∀ l ∈ R, isLine l) (hRend : ∀ l ∈ R.dropLast, pyEndsWithNewline l = true)
    (hRhead : R = [] ∨ R.head? = some "\n") :
    (updateLoaderCore (some (concatS P ++ (LOADER_START_SENTINEL ++ (lc ++
        (LOADER_END_SENTINEL ++ concatS R))))) lc rm).2 = .ok () ∧
    fileAfterCore (some (concatS P ++ (LOADER_START_SENTINEL ++ (lc ++
        (LOADER_END_SENTINEL ++ concatS R))))) lc rm =
      some (if rm then concatS P ++ concatS R
        else concatS P ++ (LOADER_START_SENTINEL ++ (lc ++
          (LOADER_END_SENTINEL ++ concatS R)))) := by
  obtain ⟨hlcS, hlcE, hlcNl⟩ := hlc
  have hlcLines : ∀ l ∈ pyLines lc, l ≠ LOADER_START_SENTINEL ∧ l ≠ LOADER_END_SENTINEL :=
    fun l hl => ⟨fun hc => hlcS (hc ▸ hl), fun hc => hlcE (hc ▸ hl)⟩
  -- the parsed lines of the file
  have hlines : pyLines (concatS P ++ (LOADER_START_SENTINEL ++ (lc ++
      (LOADER_END_SENTINEL ++ concatS R)))) =
      P ++ LOADER_START_SENTINEL :: (pyLines lc ++ LOADER_END_SENTINEL :: R) := by
    rw [pyLines_concatS_append P hPc,
      completedLine_append_cons _ completed_start,
      pyLines_append lc _ hlcNl,
      completedLine_append_cons _ completed_end,
      pyLines_concatS R ⟨hRlines, hRend⟩]
  -- the scan succeeds
  have hscanok : sentinelScanFails (P ++ LOADER_START_SENTINEL ::
      (pyLines lc ++ LOADER_END_SENTINEL :: R)) false = false := by
    rw [scanFails_plain_append P hPs, scanFails_cons_start, if_neg (by simp),
      scanFails_plain_append (pyLines lc) hlcLines, scanFails_cons_end, if_pos rfl]
    have hR : ∀ l ∈ R, l ≠ LOADER_START_SENTINEL ∧ l ≠ LOADER_END_SENTINEL :=
      fun l hl => ⟨fun hc => hRs (hc ▸ hl), fun hc => hRe (hc ▸ hl)⟩
    have := scanFails_plain_append R hR [] false
    rw [List.append_nil] at this
    rw [this, scanFails_nil]
  have hmem : LOADER_START_SENTINEL ∈ P ++ LOADER_START_SENTINEL ::
      (pyLines lc ++ LOADER_END_SENTINEL :: R) := by simp
  have hPstart : LOADER_START_SENTINEL ∉ P := fun hc => (hPs _ hc).1 rfl
  -- the temp-file contents
  have hpre : preW lc rm "\n" (P ++ LOADER_START_SENTINEL ::
      (pyLines lc ++ LOADER_END_SENTINEL :: R)) =
      P ++ (if rm then [] else [LOADER_START_SENTINEL, lc, LOADER_END_SENTINEL]) ++ R := by
    rw [preW_plain_append lc rm P hPstart, hPlast]
    have hlcEnd : LOADER_END_SENTINEL ∉ pyLines lc := hlcE
    have hpost : postW false (!rm) R = R := by
      rcases hRhead with rfl | hhead
      · rw [postW_nil]
      · cases R with
        | nil => rw [postW_nil]
        | cons r R' =>
          simp only [List.head?_cons, Option.some.injEq] at hhead
          subst hhead
          rw [postW_false_cons, if_neg nl_ne_start]
          have : LOADER_START_SENTINEL ∉ R' := fun hc => hRs (List.mem_cons_of_mem _ hc)
          rw [postW_plain_id R' this]
          simp
    cases rm with
    | true =>
      rw [preW_cons_start_rm, postW_marked_append (pyLines lc) hlcEnd]
      simp only [Bool.not_true] at hpost
      rw [hpost]
      simp
    | false =>
      rw [preW_cons_start_ins, postW_marked_append (pyLines lc) hlcEnd]
      simp only [Bool.not_false] at hpost
      rw [hpost]
      simp
  obtain ⟨hcore, hfile⟩ := update_replace _ lc rm (by rw [hlines]; exact hscanok)
    (by rw [hlines]; exact hmem)
  constructor
  · rw [hcore]
  · rw [hfile, hlines, hpre]
    cases rm with
    | true =>
      rw [if_pos rfl, if_pos rfl, List.append_nil, concatS_append]
    | false =>
      rw [if_neg (by simp), if_neg (by simp), List.append_assoc, concatS_append]
      rw [show concatS ([LOADER_START_SENTINEL, lc, LOADER_END_SENTINEL] ++ R) =
        LOADER_START_SENTINEL ++ (lc ++ (LOADER_END_SENTINEL ++ concatS R)) by
          rw [List.cons_append, List.cons_append, List.cons_append, List.nil_append,
            concatS_cons, concatS_cons, concatS_cons]]

/-! ## Auxiliary lemmas for the idempotence and inverse proofs -/

theorem dropLast_append_cons {α : Type} (p : List α) (y : α) (ys : List α) :
    (p ++ y :: ys).dropLast = p ++ (y :: ys).dropLast := by
  induction p with
  | nil => rfl
  | cons a p ih =>
    cases p with
    | nil =>
      cases ys with
      | nil => rfl
      | cons b bs => rfl
    | cons b p' =>
      rw [List.cons_append, List.cons_append, List.dropLast_cons₂, ← List.cons_append,
        ih, List.cons_append]
      simp

theorem getLastD_append_singleton {α : Type} (xs : List α) (a d : α) :
    (xs ++ [a]).getLastD d = a := by
  rw [List.getLastD_eq_getLast?, getLast?_append_singleton]
  rfl

theorem mem_dropLast_or_last {α : Type} {a : α} {l : List α} (h : a ∈ l) (hne : l ≠ []) :
    a ∈ l.dropLast ∨ a = l.getLast hne := by
  induction l with
  | nil => simp at h
  | cons x l ih =>
    cases l with
    | nil =>
      simp only [List.mem_singleton] at h
      exact Or.inr (by simp [h])
    | cons y l' =>
      rcases List.mem_cons.1 h with rfl | h'
      · exact Or.inl (by rw [List.dropLast_cons₂]; simp)
      · rcases ih h' (by simp) with h'' | h''
        · exact Or.inl (by rw [List.dropLast_cons₂]; exact List.mem_cons_of_mem _ h'')
        · exact Or.inr (by rw [List.getLast_cons (by simp)]; exact h'')

theorem getLastD_eq_getLast {α : Type} (l : List α) (h : l ≠ []) (d : α) :
    l.getLastD d = l.getLast h := by
  rw [List.getLastD_eq_getLast?, List.getLast?_eq_getLast l h]
  rfl

theorem concatS_dropLast_getLast (P : List String) (h : P ≠ []) :
    concatS P = concatS P.dropLast ++ P.getLast h := by
  conv_lhs => rw [← List.dropLast_append_getLast h]
  rw [concatS_append, concatS_cons, concatS_nil, string_append_empty]

theorem pyEndsWithNewline_append (x y : String) (hy : pyEndsWithNewline y = true) :
    pyEndsWithNewline (x ++ y) = true := by
  rw [pyEndsWithNewline_iff] at hy ⊢
  rw [string_data_append]
  rw [List.getLast?_append_of_ne_nil]
  · exact hy
  · intro hnil
    rw [hnil] at hy
    simp at hy

theorem no_newline_of_isLine_not_end (l : String) (h : isLine l)
    (hne : pyEndsWithNewline l = false) : ∀ c ∈ l.data, c ≠ '\n' := by
  intro c hc
  obtain ⟨hnil, hint⟩ := h
  cases hl : l.data.getLast? with
  | none => exact absurd (List.getLast?_eq_none_iff.1 hl) hnil
  | some x =>
    rw [← List.dropLast_append_getLast? _ hl] at hc
    rcases List.mem_append.1 hc with hc' | hc'
    · exact hint c hc'
    · simp only [List.mem_singleton] at hc'
      subst hc'
      intro hcon
      have htrue : pyEndsWithNewline l = true := by
        rw [pyEndsWithNewline_iff, hl, hcon]
      rw [htrue] at hne
      simp at hne

theorem completed_append_nl (l : String) (h : isLine l)
    (hne : pyEndsWithNewline l = false) : completedLine (l ++ "\n") := by
  have hall := no_newline_of_isLine_not_end l h hne
  have hdata : (l ++ "\n").data = l.data ++ ['\n'] := by
    rw [string_data_append]
  refine ⟨⟨?_, ?_⟩, ?_⟩
  · rw [hdata]
    simp
  · rw [hdata, dropLast_append_singleton]
    exact hall
  · rw [pyEndsWithNewline_iff, hdata, getLast?_append_singleton]

theorem completed_of_getLastD_nl (s : String)
    (h : (pyLines s).getLastD "\n" = "\n") : ∀ l ∈ pyLines s, completedLine l := by
  intro l hl
  have hne : pyLines s ≠ [] := by
    intro hc
    rw [hc] at hl
    simp at hl
  rcases mem_dropLast_or_last hl hne with h' | h'
  · exact ⟨(pyLines_IsLines s).1 l hl, (pyLines_IsLines s).2 l h'⟩
  · rw [getLastD_eq_getLast _ hne] at h
    rw [h'] at hl ⊢
    rw [h]
    exact completed_nl

theorem scanFails_of_sentinel_free (L : List String)
    (h : ∀ l ∈ L, l ≠ LOADER_START_SENTINEL ∧ l ≠ LOADER_END_SENTINEL) (m : Bool) :
    sentinelScanFails L m = m := by
  have := scanFails_plain_append L h [] m
  rw [List.append_nil] at this
  rw [this, scanFails_nil]

theorem postW_isLine (ls : List String) (m jwl : Bool)
    (h : ∀ l ∈ ls, isLine l) : ∀ x ∈ postW m jwl ls, isLine x := by
  intro x hx
  rcases postW_mem ls m jwl x hx with rfl | hx'
  · exact completed_nl.1
  · exact h x hx'

theorem postW_dropLast_end (ls : List String) : ∀ (m jwl : Bool),
    (∀ l ∈ ls.dropLast, pyEndsWithNewline l = true) →
    ∀ x ∈ (postW m jwl ls).dropLast, pyEndsWithNewline x = true := by
  induction ls with
  | nil =>
    intro m jwl _ x hx
    rw [postW_nil] at hx
    simp at hx
  | cons l ls ih =>
    intro m jwl h x hx
    have hsub : ∀ y ∈ ls.dropLast, pyEndsWithNewline y = true := by
      intro y hy
      cases ls with
      | nil => simp at hy
      | cons a b =>
        refine h y ?_
        rw [List.dropLast_cons₂]
        exact List.mem_cons_of_mem _ hy
    cases m with
    | true =>
      rw [postW_true_cons] at hx
      split at hx
      · exact ih false jwl hsub x hx
      · exact ih true jwl hsub x hx
    | false =>
      rw [postW_false_cons] at hx
      split at hx
      · exact ih true jwl hsub x hx
      · cases hT : postW false false ls with
        | nil =>
          rw [hT] at hx
          rw [show (if jwl && decide (l ≠ "\n") then ["\n"] else []) ++ [l] =
            (if jwl && decide (l ≠ "\n") then ["\n"] else []) ++ [l] from rfl] at hx
          rw [dropLast_append_singleton] at hx
          split at hx
          · simp only [List.mem_singleton] at hx
            subst hx
            exact completed_nl.2
          · simp at hx
        | cons t0 T' =>
          rw [dropLast_append_cons, hT, List.dropLast_cons₂] at hx
          rcases List.mem_append.1 hx with hx' | hx'
          · split at hx'
            · simp only [List.mem_singleton] at hx'
              subst hx'
              exact completed_nl.2
            · simp at hx'
          · rcases List.mem_cons.1 hx' with rfl | hx''
            · have hlsne : ls ≠ [] := by
                intro hc
                rw [hc, postW_nil] at hT
                simp at hT
              refine h x ?_
              cases ls with
              | nil => exact absurd rfl hlsne
              | cons a b =>
                rw [List.dropLast_cons₂]
                simp
            · rw [← hT] at hx''
              exact ih false false hsub x hx''

theorem fileAfterCore_none_ins (lc : String) :
    fileAfterCore none lc false =
      some (BASH_SHEBANG ++ "\n" ++ LOADER_START_SENTINEL ++ lc ++ LOADER_END_SENTINEL) := rfl

theorem fileAfterCore_none_rm (lc : String) : fileAfterCore none lc true = none := rfl

theorem concatS_block (P R : List String) (lc : String) :
    concatS (P ++ ([LOADER_START_SENTINEL, lc, LOADER_END_SENTINEL] ++ R)) =
      concatS P ++ (LOADER_START_SENTINEL ++ (lc ++ (LOADER_END_SENTINEL ++ concatS R))) := by
  rw [concatS_append]
  congr 1

theorem nlnl_eq : "\n\n" = "\n" ++ "\n" := by decide

/-! ## Inserting then removing on a sentinel-free file -/

/-- On a sentinel-free file whose last line is blank (so the blank-line
normalization adds nothing), inserting appends exactly the block, and removing
afterwards restores the original contents byte for byte. -/
theorem insert_remove_core (s lc : String) (hlc : LoaderOK lc)
    (hfreeS : LOADER_START_SENTINEL ∉ pyLines s)
    (hfreeE : LOADER_END_SENTINEL ∉ pyLines s)
    (hlast : (pyLines s).getLastD "\n" = "\n") :
    fileAfterCore (fileAfterCore (some s) lc false) lc true = some s := by
  have hsent : ∀ l ∈ pyLines s, l ≠ LOADER_START_SENTINEL ∧ l ≠ LOADER_END_SENTINEL :=
    fun l hl => ⟨fun hc => hfreeS (hc ▸ hl), fun hc => hfreeE (hc ▸ hl)⟩
  have hscanok : sentinelScanFails (pyLines s) false = false :=
    scanFails_of_sentinel_free _ hsent false
  obtain ⟨_, hfile1⟩ := update_plain s lc false hscanok hfreeS
  simp only [Bool.false_eq_true, if_false] at hfile1
  rw [hlast, show appendGlue "\n" = "" from by decide] at hfile1
  have hout : s ++ ("" ++ LOADER_START_SENTINEL ++ lc ++ LOADER_END_SENTINEL) =
      concatS (pyLines s) ++ (LOADER_START_SENTINEL ++ (lc ++
        (LOADER_END_SENTINEL ++ concatS ([] : List String)))) := by
    rw [concatS_pyLines, concatS_nil]
    simp only [← string_append_assoc, string_append_empty, string_empty_append]
  rw [hout] at hfile1
  have hcanon := scan_canonical lc true (pyLines s) []
    (completed_of_getLastD_nl s hlast) hsent hlast hlc (by simp) (by simp)
    (by simp) (by simp) (Or.inl rfl)
  rw [hfile1, hcanon.2, if_pos rfl, concatS_pyLines, concatS_nil, string_append_empty]

/-! ## Idempotence of insertion -/

/-- Idempotence, replace case: re-running the editor on a file in which a
block was just replaced reproduces the file. -/
theorem idem_replace_case (lc : String) (hlc : LoaderOK lc) (s : String)
    (hscanok : sentinelScanFails (pyLines s) false = false)
    (hmem : LOADER_START_SENTINEL ∈ pyLines s) :
    fileAfterCore (fileAfterCore (some s) lc false) lc false =
      fileAfterCore (some s) lc false := by
  obtain ⟨rest, hdec, hpfree⟩ := first_start_decomp (pyLines s) hmem
  obtain ⟨hpEndFree, hrestok⟩ :=
    scanFails_split _ hpfree rest (by rw [← hdec]; exact hscanok)
  obtain ⟨_, hfile1⟩ := update_replace s lc false hscanok hmem
  -- notation for the pieces
  have hpsub : ∀ l ∈ (pyLines s).takeWhile (fun l => l ≠ LOADER_START_SENTINEL),
      l ∈ (pyLines s).dropLast := by
    intro l hl
    rw [hdec, dropLast_append_cons]
    exact List.mem_append.2 (Or.inl hl)
  have hPc : ∀ l ∈ (pyLines s).takeWhile (fun l => l ≠ LOADER_START_SENTINEL),
      completedLine l := by
    intro l hl
    refine ⟨(pyLines_IsLines s).1 l (mem_of_mem_dropLast (hpsub l hl)), ?_⟩
    exact (pyLines_IsLines s).2 l (hpsub l hl)
  have hPs : ∀ l ∈ (pyLines s).takeWhile (fun l => l ≠ LOADER_START_SENTINEL),
      l ≠ LOADER_START_SENTINEL ∧ l ≠ LOADER_END_SENTINEL :=
    fun l hl => ⟨fun hc => hpfree (hc ▸ hl), fun hc => hpEndFree (hc ▸ hl)⟩
  have hRs := postW_no_start rest true true
  have hRe := postW_no_end rest true true hrestok
  have hRlines : ∀ x ∈ postW true true rest, isLine x := by
    refine postW_isLine rest true true ?_
    intro l hl
    refine (pyLines_IsLines s).1 l ?_
    rw [hdec]
    exact List.mem_append.2 (Or.inr (List.mem_cons_of_mem _ hl))
  have hRend : ∀ x ∈ (postW true true rest).dropLast, pyEndsWithNewline x = true := by
    refine postW_dropLast_end rest true true ?_
    intro l hl
    refine (pyLines_IsLines s).2 l ?_
    rw [hdec, dropLast_append_cons]
    cases rest with
    | nil => simp at hl
    | cons a b =>
      rw [List.dropLast_cons₂]
      exact List.mem_append.2 (Or.inr (List.mem_cons_of_mem _ hl))
  have hRhead := postW_head_true rest true
  -- rewrite the written contents
  rw [hdec, preW_plain_append lc false _ hpfree, preW_cons_start_ins] at hfile1
  by_cases hpl : ((pyLines s).takeWhile (fun l => l ≠ LOADER_START_SENTINEL)).getLastD "\n"
      = "\n"
  · -- no glue before the block
    rw [hpl] at hfile1
    rw [show (if decide (("\n" : String) ≠ "\n") = true then ["\n"] else []) = [] from
      by simp] at hfile1
    rw [List.nil_append] at hfile1
    rw [show ((pyLines s).takeWhile (fun l => l ≠ LOADER_START_SENTINEL)) ++
        ([LOADER_START_SENTINEL, lc, LOADER_END_SENTINEL] ++ postW true true rest) =
        ((pyLines s).takeWhile (fun l => l ≠ LOADER_START_SENTINEL)) ++
        ([LOADER_START_SENTINEL, lc, LOADER_END_SENTINEL] ++ postW true true rest)
      from rfl, concatS_block] at hfile1
    have hcanon := scan_canonical lc false _ (postW true true rest) hPc hPs hpl hlc
      hRs hRe hRlines hRend hRhead
    rw [hfile1, hcanon.2, if_neg (by simp)]
  · -- a blank line is glued in before the block
    rw [show (if decide (((pyLines s).takeWhile
        (fun l => l ≠ LOADER_START_SENTINEL)).getLastD "\n" ≠ "\n") = true
        then ["\n"] else []) = ["\n"] from
      if_pos (by simp only [decide_eq_true_eq]; exact hpl)] at hfile1
    rw [show ((pyLines s).takeWhile (fun l => l ≠ LOADER_START_SENTINEL)) ++
        ((["\n"] ++ [LOADER_START_SENTINEL, lc, LOADER_END_SENTINEL]) ++
          postW true true rest) =
        (((pyLines s).takeWhile (fun l => l ≠ LOADER_START_SENTINEL)) ++ ["\n"]) ++
        ([LOADER_START_SENTINEL, lc, LOADER_END_SENTINEL] ++ postW true true rest)
      from by simp [List.append_assoc], concatS_block] at hfile1
    have hPc' : ∀ l ∈ ((pyLines s).takeWhile (fun l => l ≠ LOADER_START_SENTINEL)) ++
        ["\n"], completedLine l := by
      intro l hl
      rcases List.mem_append.1 hl with h' | h'
      · exact hPc l h'
      · simp only [List.mem_singleton] at h'
        subst h'
        exact completed_nl
    have hPs' : ∀ l ∈ ((pyLines s).takeWhile (fun l => l ≠ LOADER_START_SENTINEL)) ++
        ["\n"], l ≠ LOADER_START_SENTINEL ∧ l ≠ LOADER_END_SENTINEL := by
      intro l hl
      rcases List.mem_append.1 hl with h' | h'
      · exact hPs l h'
      · simp only [List.mem_singleton] at h'
        subst h'
        exact ⟨nl_ne_start, nl_ne_end⟩
    have hcanon := scan_canonical lc false _ (postW true true rest) hPc' hPs'
      (getLastD_append_singleton _ _ _) hlc hRs hRe hRlines hRend hRhead
    rw [hfile1, hcanon.2, if_neg (by simp)]

/-- Idempotence, append case: re-running the editor on a sentinel-free file to
which the block was just appended reproduces the file. -/
theorem idem_plain_case (lc : String) (hlc : LoaderOK lc) (s : String)
    (hscanok : sentinelScanFails (pyLines s) false = false)
    (hnomem : LOADER_START_SENTINEL ∉ pyLines s) :
    fileAfterCore (fileAfterCore (some s) lc false) lc false =
      fileAfterCore (some s) lc false := by
  have hnoend : LOADER_END_SENTINEL ∉ pyLines s := no_end_of_scan_ok _ hscanok hnomem
  have hsent : ∀ l ∈ pyLines s, l ≠ LOADER_START_SENTINEL ∧ l ≠ LOADER_END_SENTINEL :=
    fun l hl => ⟨fun hc => hnomem (hc ▸ hl), fun hc => hnoend (hc ▸ hl)⟩
  obtain ⟨_, hfile1⟩ := update_plain s lc false hscanok hnomem
  simp only [Bool.false_eq_true, if_false] at hfile1
  by_cases hA : (pyLines s).getLastD "\n" = "\n"
  · -- the file is empty or ends in a blank line: no glue is added
    rw [hA, show appendGlue "\n" = "" from by decide] at hfile1
    have hout : s ++ ("" ++ LOADER_START_SENTINEL ++ lc ++ LOADER_END_SENTINEL) =
        concatS (pyLines s) ++ (LOADER_START_SENTINEL ++ (lc ++
          (LOADER_END_SENTINEL ++ concatS ([] : List String)))) := by
      rw [concatS_pyLines, concatS_nil]
      simp only [← string_append_assoc, string_append_empty, string_empty_append]
    rw [hout] at hfile1
    have hcanon := scan_canonical lc false (pyLines s) []
      (completed_of_getLastD_nl s hA) hsent hA hlc (by simp) (by simp) (by simp)
      (by simp) (Or.inl rfl)
    rw [hfile1, hcanon.2, if_neg (by simp)]
  · have hsne : pyLines s ≠ [] := by
      intro hc
      refine hA ?_
      rw [hc]
      rfl
    by_cases hB : pyEndsWithNewline ((pyLines s).getLastD "\n") = true
    · -- the last line ends in a newline but is not blank: one blank line is glued
      have hglue : appendGlue ((pyLines s).getLastD "\n") = "\n" := by
        rw [appendGlue, hB]
        rw [if_neg (by simp), if_pos hA]
      rw [hglue] at hfile1
      have hends : pyEndsWithNewline s = true := by
        conv_lhs => rw [← concatS_pyLines s, concatS_dropLast_getLast (pyLines s) hsne]
        apply pyEndsWithNewline_append
        rw [← getLastD_eq_getLast (pyLines s) hsne "\n"]
        exact hB
      have hall := pyLines_all_completed s hends
      have hout : s ++ ("\n" ++ LOADER_START_SENTINEL ++ lc ++ LOADER_END_SENTINEL) =
          concatS (pyLines s ++ ["\n"]) ++ (LOADER_START_SENTINEL ++ (lc ++
            (LOADER_END_SENTINEL ++ concatS ([] : List String)))) := by
        rw [concatS_append, concatS_pyLines, concatS_cons, concatS_nil]
        simp only [← string_append_assoc, string_append_empty, string_empty_append]
      rw [hout] at hfile1
      have hPc : ∀ l ∈ pyLines s ++ ["\n"], completedLine l := by
        intro l hl
        rcases List.mem_append.1 hl with h' | h'
        · exact hall l h'
        · simp only [List.mem_singleton] at h'
          subst h'
          exact completed_nl
      have hPs : ∀ l ∈ pyLines s ++ ["\n"],
          l ≠ LOADER_START_SENTINEL ∧ l ≠ LOADER_END_SENTINEL := by
        intro l hl
        rcases List.mem_append.1 hl with h' | h'
        · exact hsent l h'
        · simp only [List.mem_singleton] at h'
          subst h'
          exact ⟨nl_ne_start, nl_ne_end⟩
      have hcanon := scan_canonical lc false (pyLines s ++ ["\n"]) [] hPc hPs
        (getLastD_append_singleton _ _ _) hlc (by simp) (by simp) (by simp) (by simp)
        (Or.inl rfl)
      rw [hfile1, hcanon.2, if_neg (by simp)]
    · -- the last line has no trailing newline: a newline plus a blank line is glued
      have hBfalse : pyEndsWithNewline ((pyLines s).getLastD "\n") = false := by
        cases hx : pyEndsWithNewline ((pyLines s).getLastD "\n") with
        | true => exact absurd hx hB
        | false => rfl
      have hglue : appendGlue ((pyLines s).getLastD "\n") = "\n\n" := by
        rw [appendGlue, hBfalse]
        simp
      rw [hglue] at hfile1
      have hlasteq : (pyLines s).getLastD "\n" = (pyLines s).getLast hsne :=
        getLastD_eq_getLast _ hsne _
      have hlineL : isLine ((pyLines s).getLast hsne) :=
        (pyLines_IsLines s).1 _ (List.getLast_mem hsne)
      have hcompL : completedLine ((pyLines s).getLast hsne ++ "\n") :=
        completed_append_nl _ hlineL (by rw [← hlasteq]; exact hBfalse)
      have hsdec : s = concatS (pyLines s).dropLast ++ (pyLines s).getLast hsne := by
        conv_lhs => rw [← concatS_pyLines s, concatS_dropLast_getLast (pyLines s) hsne]
      have hdropc : ∀ l ∈ (pyLines s).dropLast, completedLine l := fun l hl =>
        ⟨(pyLines_IsLines s).1 l (mem_of_mem_dropLast hl), (pyLines_IsLines s).2 l hl⟩
      have hdropsent : ∀ l ∈ (pyLines s).dropLast,
          l ≠ LOADER_START_SENTINEL ∧ l ≠ LOADER_END_SENTINEL :=
        fun l hl => hsent l (mem_of_mem_dropLast hl)
      by_cases hb1 : (pyLines s).getLast hsne ++ "\n" = LOADER_START_SENTINEL
      · -- the merged line is a start sentinel: the second pass raises and
        -- leaves the file unchanged
        have hout : s ++ ("\n\n" ++ LOADER_START_SENTINEL ++ lc ++ LOADER_END_SENTINEL) =
            concatS ((pyLines s).dropLast) ++ (((pyLines s).getLast hsne ++ "\n") ++
              ("\n" ++ (LOADER_START_SENTINEL ++ (lc ++ LOADER_END_SENTINEL)))) := by
          conv_lhs => rw [hsdec]
          rw [nlnl_eq]
          simp only [← string_append_assoc]
        have hlines2 : pyLines (s ++ ("\n\n" ++ LOADER_START_SENTINEL ++ lc ++
            LOADER_END_SENTINEL)) = (pyLines s).dropLast ++
            ((pyLines s).getLast hsne ++ "\n") :: "\n" :: LOADER_START_SENTINEL ::
              (pyLines lc ++ [LOADER_END_SENTINEL]) := by
          rw [hout, pyLines_concatS_append _ hdropc,
            completedLine_append_cons _ hcompL, completedLine_append_cons _ completed_nl,
            completedLine_append_cons _ completed_start, pyLines_append lc _ hlc.2.2,
            pyLines_single _ completed_end.1]
        have hfail : sentinelScanFails (pyLines (s ++ ("\n\n" ++ LOADER_START_SENTINEL ++
            lc ++ LOADER_END_SENTINEL))) false = true := by
          rw [hlines2, scanFails_plain_append _ hdropsent, hb1, scanFails_cons_start,
            if_neg (by simp), scanFails_cons_other nl_ne_start nl_ne_end,
            scanFails_cons_start, if_pos rfl]
        obtain ⟨_, hunch⟩ := update_err _ lc false hfail
        rw [hfile1]
        exact hunch
      · by_cases hb2 : (pyLines s).getLast hsne ++ "\n" = LOADER_END_SENTINEL
        · -- the merged line is an end sentinel: same, the second pass raises
          have hout : s ++ ("\n\n" ++ LOADER_START_SENTINEL ++ lc ++
              LOADER_END_SENTINEL) =
              concatS ((pyLines s).dropLast) ++ (((pyLines s).getLast hsne ++ "\n") ++
                ("\n" ++ (LOADER_START_SENTINEL ++ (lc ++ LOADER_END_SENTINEL)))) := by
            conv_lhs => rw [hsdec]
            rw [nlnl_eq]
            simp only [← string_append_assoc]
          have hlines2 : pyLines (s ++ ("\n\n" ++ LOADER_START_SENTINEL ++ lc ++
              LOADER_END_SENTINEL)) = (pyLines s).dropLast ++
              ((pyLines s).getLast hsne ++ "\n") :: "\n" :: LOADER_START_SENTINEL ::
                (pyLines lc ++ [LOADER_END_SENTINEL]) := by
            rw [hout, pyLines_concatS_append _ hdropc,
              completedLine_append_cons _ hcompL, completedLine_append_cons _ completed_nl,
              completedLine_append_cons _ completed_start, pyLines_append lc _ hlc.2.2,
              pyLines_single _ completed_end.1]
          have hfail : sentinelScanFails (pyLines (s ++ ("\n\n" ++ LOADER_START_SENTINEL ++
              lc ++ LOADER_END_SENTINEL))) false = true := by
            rw [hlines2, scanFails_plain_append _ hdropsent, hb2, scanFails_cons_end,
              if_neg (by simp)]
          obtain ⟨_, hunch⟩ := update_err _ lc false hfail
          rw [hfile1]
          exact hunch
        · -- the merged line is no sentinel: the second pass reproduces the file
          have hout : s ++ ("\n\n" ++ LOADER_START_SENTINEL ++ lc ++
              LOADER_END_SENTINEL) =
              concatS ((pyLines s).dropLast ++ [(pyLines s).getLast hsne ++ "\n", "\n"]) ++
                (LOADER_START_SENTINEL ++ (lc ++ (LOADER_END_SENTINEL ++
                  concatS ([] : List String)))) := by
            rw [concatS_append, concatS_cons, concatS_cons, concatS_nil]
            conv_lhs => rw [hsdec]
            rw [nlnl_eq]
            simp only [← string_append_assoc, string_append_empty, string_empty_append]
          rw [hout] at hfile1
          have hPc : ∀ l ∈ (pyLines s).dropLast ++ [(pyLines s).getLast hsne ++ "\n", "\n"],
              completedLine l := by
            intro l hl
            rcases List.mem_append.1 hl with h' | h'
            · exact hdropc l h'
            · rcases List.mem_cons.1 h' with rfl | h''
              · exact hcompL
              · simp only [List.mem_singleton] at h''
                subst h''
                exact completed_nl
          have hPs : ∀ l ∈ (pyLines s).dropLast ++ [(pyLines s).getLast hsne ++ "\n", "\n"],
              l ≠ LOADER_START_SENTINEL ∧ l ≠ LOADER_END_SENTINEL := by
            intro l hl
            rcases List.mem_append.1 hl with h' | h'
            · exact hdropsent l h'
            · rcases List.mem_cons.1 h' with rfl | h''
              · exact ⟨hb1, hb2⟩
              · simp only [List.mem_singleton] at h''
                subst h''
                exact ⟨nl_ne_start, nl_ne_end⟩
          have hPlast : ((pyLines s).dropLast ++ [(pyLines s).getLast hsne ++ "\n",
              "\n"]).getLastD "\n" = "\n" := by
            rw [show (pyLines s).dropLast ++ [(pyLines s).getLast hsne ++ "\n", "\n"] =
              ((pyLines s).dropLast ++ [(pyLines s).getLast hsne ++ "\n"]) ++ ["\n"]
              from by simp]
            exact getLastD_append_singleton _ _ _
          have hcanon := scan_canonical lc false
            ((pyLines s).dropLast ++ [(pyLines s).getLast hsne ++ "\n", "\n"]) []
            hPc hPs hPlast hlc (by simp) (by simp) (by simp) (by simp) (Or.inl rfl)
          rw [hfile1, hcanon.2, if_neg (by simp)]

/-- Idempotence of insertion over every file state. -/
theorem core_idempotent (lc : String) (hlc : LoaderOK lc) (file : Option String) :
    fileAfterCore (fileAfterCore file lc false) lc false =
      fileAfterCore file lc false := by
  cases file with
  | none =>
    rw [fileAfterCore_none_ins]
    have hout : BASH_SHEBANG ++ "\n" ++ LOADER_START_SENTINEL ++ lc ++
        LOADER_END_SENTINEL =
        concatS [BASH_SHEBANG, "\n"] ++ (LOADER_START_SENTINEL ++ (lc ++
          (LOADER_END_SENTINEL ++ concatS ([] : List String)))) := by
      rw [concatS_cons, concatS_cons, concatS_nil]
      simp only [← string_append_assoc, string_append_empty, string_empty_append]
    rw [hout]
    have hcanon := scan_canonical lc false [BASH_SHEBANG, "\n"] []
      (by decide) (by decide) (by decide) hlc (by simp) (by simp) (by simp) (by simp)
      (Or.inl rfl)
    rw [hcanon.2, if_neg (by simp)]
  | some s =>
    cases hb : sentinelScanFails (pyLines s) false with
    | true =>
      obtain ⟨_, hunch⟩ := update_err s lc false hb
      rw [hunch]
      exact hunch
    | false =>
      by_cases hmem : LOADER_START_SENTINEL ∈ pyLines s
      · exact idem_replace_case lc hlc s hb hmem
      · exact idem_plain_case lc hlc s hb hmem

/-! ## Claim C1 -/

/-- C1: for every initial file state (present with any contents, or absent),
calling `update_loader_in_script` twice in a row with `remove_loader = false`,
the same script path and the same load target, leaves the file with contents
identical to those after a single call — provided the substituted loader code
is sentinel-free and newline-terminated (`LoaderOK`, true of every load target
without a newline character). -/
theorem c1_update_loader_idempotent (file : Option String) (t : String)
    (hlc : LoaderOK (mkLoaderCode t)) :
    fileAfter (fileAfter file t false) t false = fileAfter file t false :=
  core_idempotent (mkLoaderCode t) hlc file

/-- Witness for C1 at a concrete file and load target. -/
theorem c1_update_loader_idempotent_witness :
    LoaderOK (mkLoaderCode "/home/u/universal.bashrc") ∧
      fileAfter (fileAfter (some "A\nB") "/home/u/universal.bashrc" false)
          "/home/u/universal.bashrc" false =
        fileAfter (some "A\nB") "/home/u/universal.bashrc" false :=
  ⟨by decide, c1_update_loader_idempotent (some "A\nB") "/home/u/universal.bashrc"
    (by decide)⟩

/-! ## Claims C2-C5 -/

/-- C2: on a sentinel-free file, inserting the loader and then removing it
restores the file byte for byte whenever the blank-line normalization at
insertion time added no lines — that is, whenever the file's last line is
already blank (or the file is empty). -/
theorem c2_insert_then_remove_inverse (s t : String)
    (hlc : LoaderOK (mkLoaderCode t))
    (hfreeS : LOADER_START_SENTINEL ∉ pyLines s)
    (hfreeE : LOADER_END_SENTINEL ∉ pyLines s)
    (hlast : (pyLines s).getLastD "\n" = "\n") :
    fileAfter (fileAfter (some s) t false) t true = some s :=
  insert_remove_core s (mkLoaderCode t) hlc hfreeS hfreeE hlast

/-- Witness for C2 at a concrete sentinel-free file ending in a blank line. -/
theorem c2_insert_then_remove_inverse_witness :
    (LoaderOK (mkLoaderCode "/p") ∧
      LOADER_START_SENTINEL ∉ pyLines "hello\n\n" ∧
      LOADER_END_SENTINEL ∉ pyLines "hello\n\n" ∧
      (pyLines "hello\n\n").getLastD "\n" = "\n") ∧
    fileAfter (fileAfter (some "hello\n\n") "/p" false) "/p" true = some "hello\n\n" :=
  ⟨⟨by decide, by decide, by decide, by decide⟩,
    c2_insert_then_remove_inverse "hello\n\n" "/p" (by decide) (by decide) (by decide)
      (by decide)⟩

/-- C3: on a file whose sentinel structure is malformed — a start sentinel
never closed before end of file, a start sentinel inside a marked section, or
an end sentinel outside one (`sentinelScanFails`) — the call raises
`BadFileContents` and the target file is byte-for-byte unchanged. -/
theorem c3_structural_error_unchanged (s t : String) (r : Bool)
    (h : sentinelScanFails (pyLines s) false = true) :
    (∃ e : BadFileContents, updateResult (some s) t r = .error e) ∧
      fileAfter (some s) t r = some s :=
  update_err s (mkLoaderCode t) r h

/-- Witness for C3 at a file consisting of a lone start sentinel. -/
theorem c3_structural_error_unchanged_witness :
    sentinelScanFails (pyLines LOADER_START_SENTINEL) false = true ∧
      ((∃ e : BadFileContents,
          updateResult (some LOADER_START_SENTINEL) "/t" false = .error e) ∧
        fileAfter (some LOADER_START_SENTINEL) "/t" false =
          some LOADER_START_SENTINEL) :=
  ⟨by decide, c3_structural_error_unchanged LOADER_START_SENTINEL "/t" false (by decide)⟩

/-- C4: on `"A\nB\n"` (no existing block) insertion appends a blank line and
the block, because the last line `"B\n"` is not blank; on `"A\nB\n\n"` it
appends the block with no extra blank line, and the results coincide. -/
theorem c4_insert_blank_line_normalization (t : String) :
    fileAfter (some "A\nB\n") t false =
      some ("A\nB\n\n" ++ (LOADER_START_SENTINEL ++ (mkLoaderCode t ++
        LOADER_END_SENTINEL))) ∧
    fileAfter (some "A\nB\n\n") t false =
      some ("A\nB\n\n" ++ (LOADER_START_SENTINEL ++ (mkLoaderCode t ++
        LOADER_END_SENTINEL))) := by
  constructor
  · have h := (update_plain "A\nB\n" (mkLoaderCode t) false (by decide) (by decide)).2
    simp only [Bool.false_eq_true, if_false] at h
    rw [show (pyLines "A\nB\n").getLastD "\n" = "B\n" from by decide,
      show appendGlue "B\n" = "\n" from by decide] at h
    rw [fileAfter_eq_core, h]
    congr 1
  · have h := (update_plain "A\nB\n\n" (mkLoaderCode t) false (by decide) (by decide)).2
    simp only [Bool.false_eq_true, if_false] at h
    rw [show (pyLines "A\nB\n\n").getLastD "\n" = "\n" from by decide,
      show appendGlue "\n" = "" from by decide] at h
    rw [fileAfter_eq_core, h]
    congr 1

/-- Counterexample to C5: for a nonexistent input file, inserting then
removing leaves a file containing the shebang line and a blank line — neither
an empty file nor an absent one. -/
theorem c5_counterexample :
    fileAfter (fileAfter none "/x" false) "/x" true = some "#!/bin/bash\n\n" ∧
      fileAfter (fileAfter none "/x" false) "/x" true ≠ some "" ∧
      fileAfter (fileAfter none "/x" false) "/x" true ≠ none :=
  ⟨by decide, by decide, by decide⟩

/-- C5 as amended: for an empty input file, inserting then removing yields an
empty file; for a nonexistent input file, insertion creates the file with a
shebang line and a blank line before the block, so the subsequent removal
leaves `"#!/bin/bash\n\n"` (not an empty or absent file). -/
theorem c5_amended_insert_remove_empty_or_missing (t : String)
    (hlc : LoaderOK (mkLoaderCode t)) :
    fileAfter (fileAfter (some "") t false) t true = some "" ∧
      fileAfter (fileAfter none t false) t true = some (BASH_SHEBANG ++ "\n") := by
  constructor
  · exact insert_remove_core "" (mkLoaderCode t) hlc (by simp [pyLines_empty])
      (by simp [pyLines_empty]) rfl
  · rw [fileAfter_eq_core, fileAfter_eq_core, fileAfterCore_none_ins]
    have hout : BASH_SHEBANG ++ "\n" ++ LOADER_START_SENTINEL ++ mkLoaderCode t ++
        LOADER_END_SENTINEL =
        concatS [BASH_SHEBANG, "\n"] ++ (LOADER_START_SENTINEL ++ (mkLoaderCode t ++
          (LOADER_END_SENTINEL ++ concatS ([] : List String)))) := by
      rw [concatS_cons, concatS_cons, concatS_nil]
      simp only [← string_append_assoc, string_append_empty, string_empty_append]
    rw [hout]
    have hcanon := scan_canonical (mkLoaderCode t) true [BASH_SHEBANG, "\n"] []
      (by decide) (by decide) (by decide) hlc (by simp) (by simp) (by simp) (by simp)
      (Or.inl rfl)
    rw [hcanon.2, if_pos rfl, concatS_cons, concatS_cons, concatS_nil]
    simp only [string_append_empty]

/-- Witness for the amended C5 at a concrete load target. -/
theorem c5_amended_witness :
    LoaderOK (mkLoaderCode "/x") ∧
      (fileAfter (fileAfter (some "") "/x" false) "/x" true = some "" ∧
        fileAfter (fileAfter none "/x" false) "/x" true =
          some (BASH_SHEBANG ++ "\n")) :=
  ⟨by decide, c5_amended_insert_remove_empty_or_missing "/x" (by decide)⟩

/-! ## Claim C9 -/

theorem pyLines_canonical (lc : String) (P R : List String)
    (hPc : ∀ l ∈ P, completedLine l) (hlcNl : pyEndsWithNewline lc = true)
    (hR : IsLines R) :
    pyLines (concatS P ++ (LOADER_START_SENTINEL ++ (lc ++ (LOADER_END_SENTINEL ++
      concatS R)))) =
      P ++ LOADER_START_SENTINEL :: (pyLines lc ++ LOADER_END_SENTINEL :: R) := by
  rw [pyLines_concatS_append P hPc, completedLine_append_cons _ completed_start,
    pyLines_append lc _ hlcNl, completedLine_append_cons _ completed_end,
    pyLines_concatS R hR]

/-- C9: on a well-nested file containing at least one sentinel pair (possibly
several), insertion succeeds, the first pair is replaced by the regenerated
block at its position, and every later pair together with its contents is
deleted: the output's lines are the sentinel-free prefix before the first
start sentinel, an optional glued blank line, exactly one regenerated block,
and a sentinel-free remainder — so the output contains exactly one pair. -/
theorem c9_multiple_pairs_collapsed (s t : String)
    (hlc : LoaderOK (mkLoaderCode t))
    (hscanok : sentinelScanFails (pyLines s) false = false)
    (hmem : LOADER_START_SENTINEL ∈ pyLines s) :
    updateResult (some s) t false = .ok () ∧
    ∃ (out : String) (sep R : List String),
      fileAfter (some s) t false = some out ∧
      (sep = [] ∨ sep = ["\n"]) ∧
      pyLines out =
        (pyLines s).takeWhile (fun l => l ≠ LOADER_START_SENTINEL) ++ sep ++
          [LOADER_START_SENTINEL] ++ pyLines (mkLoaderCode t) ++
          [LOADER_END_SENTINEL] ++ R ∧
      LOADER_START_SENTINEL ∉ (pyLines s).takeWhile (fun l => l ≠ LOADER_START_SENTINEL) ∧
      LOADER_END_SENTINEL ∉ (pyLines s).takeWhile (fun l => l ≠ LOADER_START_SENTINEL) ∧
      LOADER_START_SENTINEL ∉ R ∧ LOADER_END_SENTINEL ∉ R := by
  obtain ⟨rest, hdec, hpfree⟩ := first_start_decomp (pyLines s) hmem
  obtain ⟨hpEndFree, hrestok⟩ :=
    scanFails_split _ hpfree rest (by rw [← hdec]; exact hscanok)
  obtain ⟨hcore, hfile1⟩ := update_replace s (mkLoaderCode t) false hscanok hmem
  have hok : updateResult (some s) t false = .ok () := by
    show (updateLoaderCore (some s) (mkLoaderCode t) false).2 = .ok ()
    rw [hcore]
  have hpsub : ∀ l ∈ (pyLines s).takeWhile (fun l => l ≠ LOADER_START_SENTINEL),
      l ∈ (pyLines s).dropLast := by
    intro l hl
    rw [hdec, dropLast_append_cons]
    exact List.mem_append.2 (Or.inl hl)
  have hPc : ∀ l ∈ (pyLines s).takeWhile (fun l => l ≠ LOADER_START_SENTINEL),
      completedLine l := by
    intro l hl
    exact ⟨(pyLines_IsLines s).1 l (mem_of_mem_dropLast (hpsub l hl)),
      (pyLines_IsLines s).2 l (hpsub l hl)⟩
  have hRs := postW_no_start rest true true
  have hRe := postW_no_end rest true true hrestok
  have hRlines : ∀ x ∈ postW true true rest, isLine x := by
    refine postW_isLine rest true true ?_
    intro l hl
    refine (pyLines_IsLines s).1 l ?_
    rw [hdec]
    exact List.mem_append.2 (Or.inr (List.mem_cons_of_mem _ hl))
  have hRend : ∀ x ∈ (postW true true rest).dropLast, pyEndsWithNewline x = true := by
    refine postW_dropLast_end rest true true ?_
    intro l hl
    refine (pyLines_IsLines s).2 l ?_
    rw [hdec, dropLast_append_cons]
    cases rest with
    | nil => simp at hl
    | cons a b =>
      rw [List.dropLast_cons₂]
      exact List.mem_append.2 (Or.inr (List.mem_cons_of_mem _ hl))
  rw [hdec, preW_plain_append _ false _ hpfree, preW_cons_start_ins] at hfile1
  by_cases hpl : ((pyLines s).takeWhile (fun l => l ≠ LOADER_START_SENTINEL)).getLastD "\n"
      = "\n"
  · rw [hpl, show (if decide (("\n" : String) ≠ "\n") = true then ["\n"] else []) = []
      from by simp, List.nil_append, concatS_block] at hfile1
    refine ⟨hok, _, [], postW true true rest, hfile1, Or.inl rfl, ?_,
      hpfree, hpEndFree, hRs, hRe⟩
    rw [pyLines_canonical _ _ _ hPc hlc.2.2 ⟨hRlines, hRend⟩]
    simp [List.append_assoc]
  · rw [show (if decide (((pyLines s).takeWhile
        (fun l => l ≠ LOADER_START_SENTINEL)).getLastD "\n" ≠ "\n") = true
        then ["\n"] else []) = ["\n"] from
      if_pos (by simp only [decide_eq_true_eq]; exact hpl)] at hfile1
    rw [show ((pyLines s).takeWhile (fun l => l ≠ LOADER_START_SENTINEL)) ++
        ((["\n"] ++ [LOADER_START_SENTINEL, mkLoaderCode t, LOADER_END_SENTINEL]) ++
          postW true true rest) =
        (((pyLines s).takeWhile (fun l => l ≠ LOADER_START_SENTINEL)) ++ ["\n"]) ++
        ([LOADER_START_SENTINEL, mkLoaderCode t, LOADER_END_SENTINEL] ++
          postW true true rest)
      from by simp [List.append_assoc], concatS_block] at hfile1
    have hPc' : ∀ l ∈ ((pyLines s).takeWhile (fun l => l ≠ LOADER_START_SENTINEL)) ++
        ["\n"], completedLine l := by
      intro l hl
      rcases List.mem_append.1 hl with h' | h'
      · exact hPc l h'
      · simp only [List.mem_singleton] at h'
        subst h'
        exact completed_nl
    refine ⟨hok, _, ["\n"], postW true true rest, hfile1, Or.inr rfl, ?_,
      hpfree, hpEndFree, hRs, hRe⟩
    rw [pyLines_canonical _ _ _ hPc' hlc.2.2 ⟨hRlines, hRend⟩]
    simp [List.append_assoc]

/-- Witness for C9 at a file with two sentinel pairs. -/
theorem c9_multiple_pairs_collapsed_witness :
    (LoaderOK (mkLoaderCode "/x") ∧
      sentinelScanFails (pyLines ("x\n" ++ LOADER_START_SENTINEL ++ "j\n" ++
        LOADER_END_SENTINEL ++ "y\n" ++ LOADER_START_SENTINEL ++ "z\n" ++
        LOADER_END_SENTINEL ++ "w\n")) false = false ∧
      LOADER_START_SENTINEL ∈ pyLines ("x\n" ++ LOADER_START_SENTINEL ++ "j\n" ++
        LOADER_END_SENTINEL ++ "y\n" ++ LOADER_START_SENTINEL ++ "z\n" ++
        LOADER_END_SENTINEL ++ "w\n")) ∧
    updateResult (some ("x\n" ++ LOADER_START_SENTINEL ++ "j\n" ++
      LOADER_END_SENTINEL ++ "y\n" ++ LOADER_START_SENTINEL ++ "z\n" ++
      LOADER_END_SENTINEL ++ "w\n")) "/x" false = .ok () :=
  ⟨⟨by decide, by decide, by decide⟩,
    (c9_multiple_pairs_collapsed ("x\n" ++ LOADER_START_SENTINEL ++ "j\n" ++
      LOADER_END_SENTINEL ++ "y\n" ++ LOADER_START_SENTINEL ++ "z\n" ++
      LOADER_END_SENTINEL ++ "w\n") "/x" (by decide) (by decide) (by decide)).1⟩

/-! ## Claims C6 and C7 -/

theorem exists_map_writeTemp (ops : List FSOp)
    (h : ∀ op ∈ ops, ∃ d, op = FSOp.writeTemp d) :
    ∃ ws : List String, ops = ws.map FSOp.writeTemp := by
  induction ops with
  | nil => exact ⟨[], rfl⟩
  | cons op ops ih =>
    obtain ⟨d, rfl⟩ := h op (by simp)
    obtain ⟨ws, hws⟩ := ih (fun o ho => h o (List.mem_cons_of_mem _ ho))
    exact ⟨d :: ws, by rw [List.map_cons, hws]⟩

/-- Counterexample to C6: on the existing file `"A\n"` (no sentinel block),
insertion modifies the file — its contents change — yet the operation trace
contains an in-place append and no rename, so the modification is not done
via a temporary-file-then-replace sequence. -/
theorem c6_counterexample :
    FSOp.appendOrig ("\n" ++ LOADER_START_SENTINEL ++ mkLoaderCode "/x" ++
        LOADER_END_SENTINEL) ∈ (update_loader_in_script (some "A\n") "/x" false).1 ∧
      FSOp.renameTempToOrig ∉ (update_loader_in_script (some "A\n") "/x" false).1 ∧
      fileAfter (some "A\n") "/x" false ≠ some "A\n" :=
  ⟨by decide, by decide, by decide⟩

/-- C6 as amended: on success, the operation trace takes one of exactly five
shapes — nothing (missing file, removal); a direct write of a new file
(missing file, insertion); scratch-file writes then remove-original plus
rename (an existing block was found); scratch-file writes then scratch delete
(existing file, no block, removal); or scratch-file writes, scratch delete and
one in-place append (existing file, no block, insertion).  An existing file is
rewritten through the scratch file only when a block was found; appending to a
blockless file happens in place. -/
theorem c6_amended_trace_shapes (file : Option String) (t : String) (r : Bool)
    (h : updateResult file t r = .ok ()) :
    (update_loader_in_script file t r).1 = [] ∨
    (∃ d, (update_loader_in_script file t r).1 = [FSOp.createOrig d]) ∨
    (∃ ws : List String, (update_loader_in_script file t r).1 =
      FSOp.createTemp :: ws.map FSOp.writeTemp ++
        [FSOp.removeOrig, FSOp.renameTempToOrig]) ∨
    (∃ ws : List String, (update_loader_in_script file t r).1 =
      FSOp.createTemp :: ws.map FSOp.writeTemp ++ [FSOp.removeTemp]) ∨
    (∃ (ws : List String) (d : String), (update_loader_in_script file t r).1 =
      FSOp.createTemp :: ws.map FSOp.writeTemp ++
        [FSOp.removeTemp, FSOp.appendOrig d]) := by
  cases file with
  | none =>
    cases r with
    | true => exact Or.inl rfl
    | false => exact Or.inr (Or.inl ⟨_, rfl⟩)
  | some s =>
    rcases hscan : scanLines (mkLoaderCode t) r (pyLines s) initialScanState with ⟨ops, res⟩
    have hops : ∀ op ∈ ops, ∃ d, op = FSOp.writeTemp d := fun op hop =>
      scanLines_ops_writeTemp (mkLoaderCode t) r (pyLines s) initialScanState op
        (by rw [hscan]; exact hop)
    obtain ⟨ws, rfl⟩ := exists_map_writeTemp ops hops
    cases res with
    | error e =>
      have := core_some_err hscan
      rw [show updateResult (some s) t r =
        (updateLoaderCore (some s) (mkLoaderCode t) r).2 from rfl, this] at h
      exact absurd h (by simp)
    | ok st =>
      cases hm : st.inMarkedSection with
      | true =>
        have := core_some_ok_marked hscan hm
        rw [show updateResult (some s) t r =
          (updateLoaderCore (some s) (mkLoaderCode t) r).2 from rfl, this] at h
        exact absurd h (by simp)
      | false =>
        cases hf : st.oldLoaderFound with
        | true =>
          refine Or.inr (Or.inr (Or.inl ⟨ws, ?_⟩))
          show (updateLoaderCore (some s) (mkLoaderCode t) r).1 = _
          rw [core_some_ok_found hscan hm hf]
        | false =>
          cases r with
          | true =>
            refine Or.inr (Or.inr (Or.inr (Or.inl ⟨ws, ?_⟩)))
            show (updateLoaderCore (some s) (mkLoaderCode t) true).1 = _
            rw [core_some_ok_nofound hscan hm hf]
            simp
          | false =>
            refine Or.inr (Or.inr (Or.inr (Or.inr ⟨ws,
              appendGlue st.lastLine ++ LOADER_START_SENTINEL ++ mkLoaderCode t ++
                LOADER_END_SENTINEL, ?_⟩)))
            show (updateLoaderCore (some s) (mkLoaderCode t) false).1 = _
            rw [core_some_ok_nofound hscan hm hf]
            simp

/-- Witness for the amended C6 at a concrete successful run. -/
theorem c6_amended_trace_shapes_witness :
    updateResult (some "A\n") "/x" false = .ok () ∧
      ((update_loader_in_script (some "A\n") "/x" false).1 = [] ∨
      (∃ d, (update_loader_in_script (some "A\n") "/x" false).1 = [FSOp.createOrig d]) ∨
      (∃ ws : List String, (update_loader_in_script (some "A\n") "/x" false).1 =
        FSOp.createTemp :: ws.map FSOp.writeTemp ++
          [FSOp.removeOrig, FSOp.renameTempToOrig]) ∨
      (∃ ws : List String, (update_loader_in_script (some "A\n") "/x" false).1 =
        FSOp.createTemp :: ws.map FSOp.writeTemp ++ [FSOp.removeTemp]) ∨
      (∃ (ws : List String) (d : String),
        (update_loader_in_script (some "A\n") "/x" false).1 =
          FSOp.createTemp :: ws.map FSOp.writeTemp ++
            [FSOp.removeTemp, FSOp.appendOrig d])) :=
  ⟨by decide, c6_amended_trace_shapes (some "A\n") "/x" false (by decide)⟩

/-- Counterexample to C7: on a file consisting of a lone end sentinel the call
raises, and the scratch file is left behind on disk (its final state is not
`none`): the exception propagates past any cleanup. -/
theorem c7_counterexample :
    (fsAfter (some LOADER_END_SENTINEL) "/x" false).temp ≠ none ∧
      updateResult (some LOADER_END_SENTINEL) "/x" false =
        .error ⟨"Found an end sentinel without a start sentinel"⟩ :=
  ⟨by decide, by decide⟩

/-- C7 as amended: on every successful exit the scratch file is renamed over
the original or deleted — never left behind; on a structural-corruption error,
however, the scratch file is left on disk. -/
theorem c7_amended_temp_cleanup_on_success (file : Option String) (t : String)
    (r : Bool) (h : updateResult file t r = .ok ()) :
    (fsAfter file t r).temp = none := by
  cases file with
  | none =>
    cases r with
    | true => rfl
    | false => rfl
  | some s =>
    rcases hscan : scanLines (mkLoaderCode t) r (pyLines s) initialScanState with ⟨ops, res⟩
    have hops : ∀ op ∈ ops, ∃ d, op = FSOp.writeTemp d := fun op hop =>
      scanLines_ops_writeTemp (mkLoaderCode t) r (pyLines s) initialScanState op
        (by rw [hscan]; exact hop)
    obtain ⟨ws, rfl⟩ := exists_map_writeTemp ops hops
    cases res with
    | error e =>
      have := core_some_err hscan
      rw [show updateResult (some s) t r =
        (updateLoaderCore (some s) (mkLoaderCode t) r).2 from rfl, this] at h
      exact absurd h (by simp)
    | ok st =>
      cases hm : st.inMarkedSection with
      | true =>
        have := core_some_ok_marked hscan hm
        rw [show updateResult (some s) t r =
          (updateLoaderCore (some s) (mkLoaderCode t) r).2 from rfl, this] at h
        exact absurd h (by simp)
      | false =>
        cases hf : st.oldLoaderFound with
        | true =>
          show (runOps ⟨some s, none⟩ (updateLoaderCore (some s) (mkLoaderCode t) r).1).temp
            = none
          rw [core_some_ok_found hscan hm hf, runOps_replace_shape]
        | false =>
          cases r with
          | true =>
            show (runOps ⟨some s, none⟩
              (updateLoaderCore (some s) (mkLoaderCode t) true).1).temp = none
            rw [core_some_ok_nofound hscan hm hf]
            rw [show (if true = true then ([] : List FSOp)
              else [FSOp.appendOrig (appendGlue st.lastLine ++ LOADER_START_SENTINEL ++
                mkLoaderCode t ++ LOADER_END_SENTINEL)]) = [] from rfl, List.append_nil,
              runOps_discard_shape]
          | false =>
            show (runOps ⟨some s, none⟩
              (updateLoaderCore (some s) (mkLoaderCode t) false).1).temp = none
            rw [core_some_ok_nofound hscan hm hf]
            rw [show (if false = true then ([] : List FSOp)
              else [FSOp.appendOrig (appendGlue st.lastLine ++ LOADER_START_SENTINEL ++
                mkLoaderCode t ++ LOADER_END_SENTINEL)]) =
              [FSOp.appendOrig (appendGlue st.lastLine ++ LOADER_START_SENTINEL ++
                mkLoaderCode t ++ LOADER_END_SENTINEL)] from rfl, List.append_assoc,
              List.singleton_append, runOps_appendOrig_shape]

/-- Witness for the amended C7 at a concrete successful run. -/
theorem c7_amended_temp_cleanup_witness :
    updateResult (some "A\n") "/y" false = .ok () ∧
      (fsAfter (some "A\n") "/y" false).temp = none :=
  ⟨by decide, c7_amended_temp_cleanup_on_success (some "A\n") "/y" false (by decide)⟩

/-! ## Claim C8: `force_remove_dir` (src/installer/__main__.py lines 13-26) -/

/-- Result of one `shutil.rmtree(dir_path)` attempt as `force_remove_dir`
observes it: success, `FileNotFoundError`, or `PermissionError` carrying
`ex.filename`. -/
inductive RmtreeOutcome where
  | ok
  | notFound
  | permError (filename : String)
deriving DecidableEq, Repr

/-- Result of `force_remove_dir`: normal return, or the re-raised
`PermissionError`; either way `fixedPaths` is the final `already_fixed` (the
paths whose read-only attribute was cleared with `os.chmod`). -/
inductive RmResult where
  | removed (fixedPaths : List String)
  | errorRaised (filename : String) (fixedPaths : List String)
deriving DecidableEq, Repr

/-- The `while True` loop of `force_remove_dir`.  `rmtree` is the behaviour
of `shutil.rmtree` as a function of the set of paths already chmod-ed (the
only state the loop changes between attempts); `fixed` is `already_fixed`.
The source loop is unbounded, so it is embedded on fuel; termination is the
provable statement that a fuel bound computed from the directory tree always
suffices. -/
def forceRemoveDirLoop (rmtree : List String → RmtreeOutcome) :
    Nat → List String → Option RmResult
  | 0, _ => none
  | n + 1, fixed =>
    match rmtree fixed with
    | .ok => some (.removed fixed)
    | .notFound => some (.removed fixed)
    | .permError f =>
      if f ∈ fixed then some (.errorRaised f fixed)
      else forceRemoveDirLoop rmtree n (f :: fixed)

/-- `force_remove_dir(dir_path)`, starting from an empty `already_fixed`. -/
def force_remove_dir (rmtree : List String → RmtreeOutcome) (fuel : Nat) :
    Option RmResult :=
  forceRemoveDirLoop rmtree fuel []

theorem forceRemoveDirLoop_succ (rmtree : List String → RmtreeOutcome) (n : Nat)
    (fixed : List String) :
    forceRemoveDirLoop rmtree (n + 1) fixed =
      match rmtree fixed with
      | .ok => some (.removed fixed)
      | .notFound => some (.removed fixed)
      | .permError f =>
        if f ∈ fixed then some (.errorRaised f fixed)
        else forceRemoveDirLoop rmtree n (f :: fixed) := rfl

theorem forceRemoveDirLoop_terminates (rmtree : List String → RmtreeOutcome)
    (S : Finset String) (hS : ∀ fixed f, rmtree fixed = .permError f → f ∈ S) :
    ∀ (fuel : Nat) (fixed : List String), fixed.Nodup → (∀ x ∈ fixed, x ∈ S) →
      S.card + 1 ≤ fuel + fixed.length →
      ∃ r, forceRemoveDirLoop rmtree fuel fixed = some r ∧
        (∀ fp, r = .removed fp → fp.Nodup) ∧
        (∀ f fp, r = .errorRaised f fp → f ∈ fp ∧ fp.Nodup) := by
  intro fuel
  induction fuel with
  | zero =>
    intro fixed hnd hsub hcard
    exfalso
    have h1 : fixed.toFinset ⊆ S := fun x hx => hsub x (List.mem_toFinset.1 hx)
    have h2 := Finset.card_le_card h1
    rw [List.toFinset_card_of_nodup hnd] at h2
    omega
  | succ n ih =>
    intro fixed hnd hsub hcard
    rcases hr : rmtree fixed with _ | _ | f
    · refine ⟨.removed fixed, by rw [forceRemoveDirLoop_succ, hr], ?_, ?_⟩
      · intro fp hfp
        injection hfp with h
        rw [← h]
        exact hnd
      · intro f fp hfp
        exact nomatch hfp
    · refine ⟨.removed fixed, by rw [forceRemoveDirLoop_succ, hr], ?_, ?_⟩
      · intro fp hfp
        injection hfp with h
        rw [← h]
        exact hnd
      · intro f fp hfp
        exact nomatch hfp
    · by_cases hf : f ∈ fixed
      · refine ⟨.errorRaised f fixed, ?_, ?_, ?_⟩
        · rw [forceRemoveDirLoop_succ, hr]
          simp [hf]
        · intro fp hfp
          exact nomatch hfp
        · intro f' fp hfp
          injection hfp with h1 h2
          rw [← h1, ← h2]
          exact ⟨hf, hnd⟩
      · have hfS : f ∈ S := hS fixed f hr
        obtain ⟨r, hrun, hp1, hp2⟩ := ih (f :: fixed)
          (List.nodup_cons.2 ⟨hf, hnd⟩)
          (fun x hx => by
            rcases List.mem_cons.1 hx with rfl | hx'
            · exact hfS
            · exact hsub x hx')
          (by simp only [List.length_cons]; omega)
        refine ⟨r, ?_, hp1, hp2⟩
        rw [forceRemoveDirLoop_succ, hr]
        simp [hf, hrun]

/-- C8: `force_remove_dir` terminates on every input whose `PermissionError`
filenames are drawn from a finite set `S` (the paths of the actual directory
tree): fuel `S.card + 1` suffices.  Each distinct path is chmod-ed at most
once (`already_fixed` stays duplicate-free); a `PermissionError` on an
already-fixed path is re-raised; and `FileNotFoundError` is treated as
success. -/
theorem c8_force_remove_dir_policy (rmtree : List String → RmtreeOutcome)
    (S : Finset String) (hS : ∀ fixed f, rmtree fixed = .permError f → f ∈ S) :
    (∃ r, force_remove_dir rmtree (S.card + 1) = some r ∧
      (∀ fp, r = .removed fp → fp.Nodup) ∧
      (∀ f fp, r = .errorRaised f fp → f ∈ fp ∧ fp.Nodup)) ∧
    (∀ (n : Nat) (fixed : List String), rmtree fixed = .notFound →
      forceRemoveDirLoop rmtree (n + 1) fixed = some (.removed fixed)) ∧
    (∀ (n : Nat) (fixed : List String) (f : String), rmtree fixed = .permError f →
      f ∈ fixed → forceRemoveDirLoop rmtree (n + 1) fixed = some (.errorRaised f fixed)) := by
  refine ⟨?_, ?_, ?_⟩
  · exact forceRemoveDirLoop_terminates rmtree S hS (S.card + 1) [] (by simp)
      (by simp) (by simp)
  · intro n fixed hr
    rw [forceRemoveDirLoop_succ, hr]
  · intro n fixed f hr hf
    rw [forceRemoveDirLoop_succ, hr]
    simp [hf]

/-- Witness for C8: a tree with a single read-only path `"a"` that succeeds
after one chmod. -/
theorem c8_force_remove_dir_policy_witness :
    (∀ fixed f, (fun fixed : List String => if ("a" : String) ∈ fixed then RmtreeOutcome.ok
        else RmtreeOutcome.permError "a") fixed = .permError f →
      f ∈ ({"a"} : Finset String)) ∧
    (∃ r, force_remove_dir (fun fixed : List String => if ("a" : String) ∈ fixed then RmtreeOutcome.ok
        else RmtreeOutcome.permError "a") (({"a"} : Finset String).card + 1) = some r ∧
      (∀ fp, r = .removed fp → fp.Nodup) ∧
      (∀ f fp, r = .errorRaised f fp → f ∈ fp ∧ fp.Nodup)) := by
  have hS : ∀ fixed f, (fun fixed : List String =>
      if ("a" : String) ∈ fixed then RmtreeOutcome.ok
      else RmtreeOutcome.permError "a") fixed = .permError f →
      f ∈ ({"a"} : Finset String) := by
    intro fixed f h
    by_cases hm : ("a" : String) ∈ fixed
    · simp [hm] at h
    · simp [hm] at h
      rw [← h]
      simp
  exact ⟨hS, (c8_force_remove_dir_policy _ {"a"} hS).1⟩

/-! ## Claim C10: bash path strings (bashrc.py lines 44-71) -/

/-- Python `c in s` for a single character. -/
def pyContainsChar (s : String) (c : Char) : Bool :=
  s.data.contains c

/-- bashrc.py lines 44-51.  `to_unix_path` (from cygpath.py: the identity off
Windows, a `cygpath` subprocess call on Windows) is passed as a function.
`Except Unit` models a raised `AssertionError`. -/
def get_bash_path_string (to_unix_path : String → String) (path : String) :
    Except Unit String :=
  let path := to_unix_path path
  if pyContainsChar path '"' then .error ()
  else if pyContainsChar path '$' then .error ()
  else .ok path

/-- bashrc.py lines 53-71; `var_dict` is the ordered item list of the Python
dict, scanned for the first entry whose value is a prefix of the path. -/
def get_bash_var_based_path_string (to_unix_path : String → String) (path : String)
    (var_dict : List (String × String)) : Except Unit String :=
  let path := to_unix_path path
  if pyContainsChar path '"' then .error ()
  else if pyContainsChar path '$' then .error ()
  else
    match var_dict.find? (fun entry => entry.2.data.isPrefixOf path.data) with
    | none => .ok path
    | some entry =>
      .ok ("$\x7b" ++ entry.1 ++ "\x7d" ++ String.mk (path.data.drop entry.2.data.length))

theorem pyContainsChar_iff (s : String) (c : Char) :
    pyContainsChar s c = true ↔ c ∈ s.data := by
  simp [pyContainsChar, List.contains, List.elem_iff]

/-- C10: both path-string helpers raise `AssertionError` exactly when the
unix-converted path contains a double quote or a dollar sign (no escaping is
attempted), and return a path string exactly when neither is present. -/
theorem c10_path_string_assertions (conv : String → String) (p : String)
    (vd : List (String × String)) :
    (get_bash_path_string conv p = .error () ↔
      ('"' ∈ (conv p).data ∨ '$' ∈ (conv p).data)) ∧
    (¬('"' ∈ (conv p).data ∨ '$' ∈ (conv p).data) →
      get_bash_path_string conv p = .ok (conv p)) ∧
    (get_bash_var_based_path_string conv p vd = .error () ↔
      ('"' ∈ (conv p).data ∨ '$' ∈ (conv p).data)) ∧
    (¬('"' ∈ (conv p).data ∨ '$' ∈ (conv p).data) →
      ∃ out, get_bash_var_based_path_string conv p vd = .ok out) := by
  by_cases h1 : '"' ∈ (conv p).data
  · have hb1 : pyContainsChar (conv p) '"' = true := (pyContainsChar_iff _ _).2 h1
    refine ⟨?_, ?_, ?_, ?_⟩
    · rw [get_bash_path_string]
      simp [hb1, h1]
    · intro hc
      exact absurd (Or.inl h1) hc
    · rw [get_bash_var_based_path_string]
      simp [hb1, h1]
    · intro hc
      exact absurd (Or.inl h1) hc
  · have hb1 : pyContainsChar (conv p) '"' = false := by
      cases hx : pyContainsChar (conv p) '"' with
      | true => exact absurd ((pyContainsChar_iff _ _).1 hx) h1
      | false => rfl
    by_cases h2 : '$' ∈ (conv p).data
    · have hb2 : pyContainsChar (conv p) '$' = true := (pyContainsChar_iff _ _).2 h2
      refine ⟨?_, ?_, ?_, ?_⟩
      · rw [get_bash_path_string]
        simp [hb1, hb2, h2]
      · intro hc
        exact absurd (Or.inr h2) hc
      · rw [get_bash_var_based_path_string]
        simp [hb1, hb2, h2]
      · intro hc
        exact absurd (Or.inr h2) hc
    · have hb2 : pyContainsChar (conv p) '$' = false := by
        cases hx : pyContainsChar (conv p) '$' with
        | true => exact absurd ((pyContainsChar_iff _ _).1 hx) h2
        | false => rfl
      refine ⟨?_, ?_, ?_, ?_⟩
      · rw [get_bash_path_string]
        simp [hb1, hb2, h1, h2]
      · intro _
        rw [get_bash_path_string]
        simp [hb1, hb2]
      · rw [get_bash_var_based_path_string]
        rcases hf : vd.find? (fun entry => entry.2.data.isPrefixOf (conv p).data) with
          _ | entry <;> simp [hb1, hb2, hf, h1, h2]
      · intro _
        rw [get_bash_var_based_path_string]
        rcases hf : vd.find? (fun entry => entry.2.data.isPrefixOf (conv p).data) with
          _ | entry <;> simp [hb1, hb2, hf]

/-- Witness for C10 at the identity conversion and a clean path. -/
theorem c10_path_string_assertions_witness :
    get_bash_path_string (fun s => s) "/ab c" = .ok "/ab c" ∧
      ∃ out, get_bash_var_based_path_string (fun s => s) "/ab c" [] = .ok out :=
  ⟨(c10_path_string_assertions (fun s => s) "/ab c" []).2.1 (by decide),
    (c10_path_string_assertions (fun s => s) "/ab c" []).2.2.2 (by decide)⟩

end Bytesized
